import Mathlib

/-
Verification of the core algorithms of the mmq local RAG / memory engine.

Each Go function relevant to the checked claims is shallowly embedded as a
Lean definition that follows the source line by line:

  * `pkg/store/cache.go`        → `SetCachedResult`, `GetCachedResult`, …
  * `pkg/memory/memory.go`      → `applyTimeDecay`, `weightByImportance`, …
  * `pkg/llm/downloader.go`     → `ExpandQuery`
  * `pkg/store` (memory table)  → `DeleteMemory` (with SQLite LIKE semantics)
  * `pkg/store/chunking.go`     → `ChunkDocument`, `findBreakPoint`
  * `pkg/store` (search)        → `SearchVector`, `ReciprocalRankFusion`
  * `pkg/rag` retriever         → `retrieverRerank`

Modelling conventions: Go float64 values are idealized as `ℚ` (or `ℝ` where
`math.Exp` is involved); Go strings are Lean `String`s or `List Char` (Go
indexes bytes; the concrete inputs used below are ASCII, where the two
coincide); a Go `map` is an association list in insertion order, with the
map's randomized iteration order passed explicitly where the code iterates
over a map; database tables are lists of rows.  Go's `sort.Slice` only
promises a sorted permutation; it is modelled by a deterministic insertion
sort proved below to produce a sorted permutation.
-/

namespace Mmq

/-! ### Association lists: the model of Go maps and keyed SQL tables -/

/-- Lookup in a Go-map model (association list, at most one entry per key
once built with `assocSet`). -/
def assocGet? {α : Type} (m : List (String × α)) (key : String) : Option α :=
  (m.find? (fun e => e.1 == key)).map (·.2)

/-- Key-membership test. -/
def assocHas {α : Type} (m : List (String × α)) (key : String) : Bool :=
  m.any (fun e => e.1 == key)

/-- Go `m[key] = v` / SQL `INSERT OR REPLACE`: overwrite in place if the key
is present, otherwise append. -/
def assocSet {α : Type} (m : List (String × α)) (key : String) (v : α) :
    List (String × α) :=
  if assocHas m key then m.map (fun e => if e.1 == key then (key, v) else e)
  else m ++ [(key, v)]

theorem assocHas_iff {α : Type} (m : List (String × α)) (key : String) :
    assocHas m key = true ↔ key ∈ m.map Prod.fst := by
  simp [assocHas, List.any_eq_true]

theorem assocGet?_eq_none {α : Type} (m : List (String × α)) (key : String)
    (h : assocHas m key = false) : assocGet? m key = none := by
  unfold assocGet?
  rw [List.find?_eq_none.mpr]
  · rfl
  · intro e he
    simp only [assocHas, List.any_eq_false] at h
    exact h e he

theorem assocGet?_set_self {α : Type} (m : List (String × α)) (key : String) (v : α) :
    assocGet? (assocSet m key v) key = some v := by
  unfold assocSet
  by_cases h : assocHas m key
  · rw [if_pos h]
    induction m with
    | nil => simp [assocHas] at h
    | cons e es ih =>
      by_cases he : e.1 == key
      · simp [assocGet?, List.find?, he]
      · have hes : assocHas es key = true := by
          simpa [assocHas, List.any_cons, he] using h
        have := ih hes
        simpa [assocGet?, List.find?, he] using this
  · rw [if_neg h]
    unfold assocGet?
    have hnone : List.find? (fun e => e.1 == key) m = none := by
      rw [List.find?_eq_none]
      intro e he hbeq
      exact h (by unfold assocHas; exact List.any_eq_true.mpr ⟨e, he, hbeq⟩)
    rw [List.find?_append, hnone]
    simp [List.find?]

theorem assocSet_length {α : Type} (m : List (String × α)) (key : String) (v : α) :
    (assocSet m key v).length =
      if assocHas m key then m.length else m.length + 1 := by
  unfold assocSet
  by_cases h : assocHas m key <;> simp [h]

/-! ### LLM result cache (`pkg/store/cache.go`)

The `llm_cache` table is keyed by `hash` (primary key).  `SetCachedResult`
is an `INSERT OR REPLACE`, `GetCachedResult` returns the row's `result` or
the empty string on a miss, `ClearCache` is `DELETE FROM llm_cache`, and
`GetCacheStats` is `SELECT COUNT(*)`. -/

/-- The rows of the `llm_cache` table, in insertion order. -/
abbrev CacheState := List (String × String)

/-- `Store.SetCachedResult`: `INSERT OR REPLACE INTO llm_cache …`
(the `created_at` column is not relevant to any claim and is omitted). -/
def SetCachedResult (cache : CacheState) (key result : String) : CacheState :=
  assocSet cache key result

/-- `Store.GetCachedResult`: `SELECT result FROM llm_cache WHERE hash = ?`,
returning `""` when no row matches (`sql.ErrNoRows` is a silent miss). -/
def GetCachedResult (cache : CacheState) (key : String) : String :=
  ((assocGet? cache key).getD "")

/-- `Store.ClearCache`: `DELETE FROM llm_cache`. -/
def ClearCache : CacheState := []

/-- `Store.GetCacheStats`: `SELECT COUNT(*) FROM llm_cache`. -/
def GetCacheStats (cache : CacheState) : Nat := cache.length

/-- C7: counterexample.  Two successful `SetCachedResult` calls on the same
key (with no clears or deletes in between) leave `GetCacheStats` at 1, not
at 2: the stats value is the row count, not the number of successful sets. -/
theorem C7_counterexample :
    GetCacheStats (SetCachedResult (SetCachedResult ClearCache "k" "a") "k" "b") ≠ 2 := by
  decide

/-- C7 (amended): `GetCachedResult` directly after `SetCachedResult` on the
same key returns the value just set, and `GetCacheStats` equals the number
of distinct keys currently cached: a set of a fresh key raises it by one, a
set of an already-present key leaves it unchanged, and a clear resets it to
zero. -/
theorem C7_cache_roundtrip_stats :
    (∀ (cache : CacheState) (k v : String),
        GetCachedResult (SetCachedResult cache k v) k = v) ∧
    (∀ (cache : CacheState) (k v : String),
        GetCacheStats (SetCachedResult cache k v) =
          if k ∈ cache.map Prod.fst then GetCacheStats cache
          else GetCacheStats cache + 1) ∧
    GetCacheStats ClearCache = 0 := by
  refine ⟨fun cache k v => ?_, fun cache k v => ?_, rfl⟩
  · unfold GetCachedResult SetCachedResult
    rw [assocGet?_set_self]
    rfl
  · unfold GetCacheStats SetCachedResult
    rw [assocSet_length]
    by_cases h : assocHas cache k
    · rw [if_pos h, if_pos ((assocHas_iff cache k).mp h)]
    · rw [if_neg h, if_neg]
      intro hmem
      exact h ((assocHas_iff cache k).mpr hmem)

/-! ### Memory manager (`pkg/memory/memory.go`)

Timestamps and durations are measured in hours (`time.Duration.Hours()` /
`time.Time.Sub(...).Hours()` are the only uses in this code), idealized as
`ℚ`.  The relevance score passes through `math.Exp`, so it is idealized as
`ℝ`. -/

/-- `memory.Memory` (the `map[string]interface{}` metadata is opaque here). -/
structure Memory where
  id : String
  type : String
  content : String
  metadata : List (String × String)
  tags : List String
  timestamp : ℚ
  expiresAt : Option ℚ
  importance : ℚ
  relevance : ℝ

/-- `memory.RecallOptions`. -/
structure RecallOptions where
  limit : Nat
  memoryTypes : Option (List String)
  applyDecay : Bool
  decayHalflife : ℚ
  weightByImportance : Bool
  minRelevance : ℝ

/-- `memory.DefaultRecallOptions`: in particular
`DecayHalflife: 24 * time.Hour * 30`, i.e. 720 hours = 30 days. -/
def DefaultRecallOptions : RecallOptions :=
  { limit := 10
    memoryTypes := none
    applyDecay := true
    decayHalflife := 24 * 30
    weightByImportance := true
    minRelevance := 0 }

/-- `Manager.applyTimeDecay`: for EVERY memory in the slice (there is no
test of the memory's type in the source), multiply its relevance by
`math.Exp(-age.Hours() / halflife.Hours())` where `age = now - timestamp`. -/
noncomputable def applyTimeDecay (now : ℚ) : List Memory → ℚ → List Memory
  | [], _ => []
  | m :: ms, halflife =>
    { m with relevance :=
        m.relevance * Real.exp (-(((now - m.timestamp) / halflife : ℚ) : ℝ)) } ::
      applyTimeDecay now ms halflife

/-- `Manager.weightByImportance`: multiply each relevance by
`0.5 + importance`. -/
noncomputable def weightByImportance : List Memory → List Memory
  | [] => []
  | m :: ms =>
    { m with relevance := m.relevance * ((1/2 + m.importance : ℚ) : ℝ) } ::
      weightByImportance ms

/-- Descending insertion used to model `sort.Slice(memories, Relevance >)`. -/
noncomputable def insertByRelevance (x : Memory) : List Memory → List Memory
  | [] => [x]
  | y :: ys => if y.relevance < x.relevance then x :: y :: ys
               else y :: insertByRelevance x ys

/-- Steps 4–8 of `Manager.Recall` (after the store query and conversion):
optional time decay, optional importance weighting, re-sort by relevance
descending, optional minimum-relevance filter, truncation to the limit. -/
noncomputable def recallPost (now : ℚ) (results : List Memory)
    (opts : RecallOptions) : List Memory :=
  let ms := if opts.applyDecay then applyTimeDecay now results opts.decayHalflife
            else results
  let ms := if opts.weightByImportance then weightByImportance ms else ms
  let ms := ms.foldr insertByRelevance []
  let ms := if opts.minRelevance > 0 then
              ms.filter (fun m => decide (m.relevance ≥ opts.minRelevance))
            else ms
  if ms.length > opts.limit then ms.take opts.limit else ms

/-- A concrete `fact`-type memory used to refute the decay exemption. -/
noncomputable def factMemory : Memory :=
  { id := "m1"
    type := "fact"
    content := "pi is irrational"
    metadata := []
    tags := []
    timestamp := 0
    expiresAt := none
    importance := 1/2
    relevance := 1 }

/-- C1: counterexample.  `applyTimeDecay` decays a memory of type `fact`
like any other: after 720 hours with the default 720-hour half-life its
relevance becomes `exp (-1) ≠ 1`, so the decay step does NOT leave fact (or
preference) relevances unchanged. -/
theorem C1_counterexample :
    (applyTimeDecay 720 [factMemory] DefaultRecallOptions.decayHalflife).map
        Memory.relevance ≠ [factMemory].map Memory.relevance := by
  intro hEq
  simp only [applyTimeDecay, List.map, factMemory, DefaultRecallOptions,
    List.cons.injEq, and_true] at hEq
  rw [one_mul] at hEq
  rw [show ((((720 : ℚ) - 0) / (24 * 30) : ℚ) : ℝ) = 1 by norm_num] at hEq
  rw [Real.exp_eq_one_iff] at hEq
  norm_num at hEq

/-- C1 (amended): with decay enabled, the decay step multiplies EVERY
candidate's relevance by `exp(-age_hours / halflife_hours)`, irrespective of
the memory's type — fact and preference memories are decayed exactly like
the rest (the mapped update never inspects `type`); the default options use
a 720-hour (30-day) half-life with decay enabled. -/
theorem C1_decay_uniform :
    (∀ (now halflife : ℚ) (ms : List Memory),
        applyTimeDecay now ms halflife =
          ms.map (fun m =>
            { m with relevance :=
                m.relevance * Real.exp (-(((now - m.timestamp) / halflife : ℚ) : ℝ)) })) ∧
    DefaultRecallOptions.decayHalflife = 720 ∧
    DefaultRecallOptions.applyDecay = true := by
  refine ⟨fun now halflife ms => ?_, by norm_num [DefaultRecallOptions], rfl⟩
  induction ms with
  | nil => rfl
  | cons m ms ih => simp [applyTimeDecay, ih]

/-- The argument record persisted by `Store.InsertMemory` (the embedding is
whatever the embedding capability returned for the content). -/
structure InsertedMemoryRow where
  type : String
  content : String
  metadata : List (String × String)
  tags : List String
  timestamp : ℚ
  expiresAt : Option ℚ
  importance : ℚ
  embedding : List ℚ

/-- `Manager.Store`: generate an embedding for the content (capability call
abstracted as `embed`), replace an unset (`== 0`) importance by the default
0.5, and persist via `store.InsertMemory`. -/
def ManagerStore (embed : String → List ℚ) (mem : Memory) : InsertedMemoryRow :=
  let importance := if mem.importance = 0 then 1/2 else mem.importance
  { type := mem.type
    content := mem.content
    metadata := mem.metadata
    tags := mem.tags
    timestamp := mem.timestamp
    expiresAt := mem.expiresAt
    importance := importance
    embedding := embed mem.content }

/-- C10: a memory stored through `Manager.Store` with importance exactly 0
is persisted with importance 0.5; any other supplied importance is persisted
unchanged; consequently an importance of exactly 0 can never be recorded
through this operation. -/
theorem C10_zero_importance_defaults (embed : String → List ℚ) (mem : Memory) :
    (ManagerStore embed mem).importance
        = (if mem.importance = 0 then 1/2 else mem.importance) ∧
    (ManagerStore embed mem).importance ≠ 0 := by
  refine ⟨rfl, ?_⟩
  unfold ManagerStore
  by_cases h : mem.importance = 0 <;> simp [h]

/-! ### Go string helpers shared by several components -/

/-- `unicode.IsSpace` restricted to the Latin-1 white space characters
(space, tab, newline, vertical tab, form feed, carriage return, NEL,
no-break space); the inputs below never contain the higher Unicode
space code points. -/
def isGoSpace (c : Char) : Bool :=
  c = ' ' || c = '\t' || c = '\n' || c = '\u000B' || c = '\u000C' || c = '\r' ||
  c = '\u0085' || c = ' '

/-- `strings.TrimSpace` on a character list. -/
def trimSpaceList (s : List Char) : List Char :=
  ((s.dropWhile isGoSpace).reverse.dropWhile isGoSpace).reverse

/-- `strings.TrimSpace`. -/
def trimSpace (s : String) : String := String.mk (trimSpaceList s.toList)

/-! ### Query expansion (`YzmaLLM.ExpandQuery`, `pkg/llm/downloader.go`)

The generative capability is a parameter: `gen = none` models
`ensureLoaded(ModelTypeGenerate)` failing (no model available); `gen =
some g` models a loaded model whose `Generate` returns `g prompt` (with
`none` for a generation error).  The `GenerateOptions` (max tokens) do not
influence the control flow and are absorbed into `g`. -/

/-- `llm.QueryExpansion` (the `Metrics` map is never set by `ExpandQuery`
and is omitted). -/
structure QueryExpansion where
  type : String
  text : String
  weight : ℚ
  deriving DecidableEq

/-- Character class used by `splitQueryWords` to break words. -/
def isQueryDelim (c : Char) : Bool :=
  c = ' ' || c = '\n' || c = '\t' || c = ',' || c = '.' || c = '?' || c = '!'

/-- Accumulator-passing transcription of the `splitQueryWords` rune loop
(the current word is accumulated in reverse). -/
def splitQueryWordsAux : List Char → List Char → List String
  | [], word => if word.isEmpty then [] else [String.mk word.reverse]
  | c :: cs, word =>
    if isQueryDelim c then
      if word.isEmpty then splitQueryWordsAux cs []
      else String.mk word.reverse :: splitQueryWordsAux cs []
    else splitQueryWordsAux cs (c :: word)

/-- `splitQueryWords`: split a query on space, newline, tab, comma, period,
question mark and exclamation mark. -/
def splitQueryWords (text : String) : List String :=
  splitQueryWordsAux text.toList []

/-- The salient keywords of a query: tokens longer than 2 characters
(`len([]rune(w)) > 2`). -/
def queryKeywords (query : String) : List String :=
  (splitQueryWords query).filter (fun w => w.length > 2)

/-- The paraphrase prompt built by `ExpandQuery` for the `vec` expansion. -/
def vecPrompt (query : String) : String :=
  "Rephrase this search query using different words but same meaning. " ++
  "Output ONLY the rephrased query, nothing else.\nQuery: " ++ query ++ "\nRephrased:"

/-- The hypothetical-answer prompt built by `ExpandQuery` for `hyde`. -/
def hydePrompt (query : String) : String :=
  "Write a short paragraph (2-3 sentences) that would be a good answer to this query. " ++
  "Output ONLY the paragraph, nothing else.\nQuery: " ++ query ++ "\nAnswer:"

/-- `YzmaLLM.ExpandQuery`. -/
def ExpandQuery (query : String) (gen : Option (String → Option String)) :
    List QueryExpansion :=
  let expansions : List QueryExpansion :=
    [{ type := "lex", text := query, weight := 2 },
     { type := "vec", text := query, weight := 2 }]
  let words := splitQueryWords query
  let keywords := words.filter (fun w => w.length > 2)
  let expansions := expansions ++
    (if keywords.length > 1 then
       keywords.map (fun kw => { type := "lex", text := kw, weight := 1/2 })
     else [])
  let expansions := expansions ++
    (if keywords.length > 2 then
       (keywords.zip keywords.tail).map
         (fun p => { type := "lex", text := p.1 ++ " " ++ p.2, weight := 7/10 })
     else [])
  match gen with
  | some g =>
    let vecPart : List QueryExpansion :=
      match g (vecPrompt query) with
      | some raw =>
        let t := trimSpace raw
        if t ≠ "" ∧ t ≠ query ∧ ¬ t.startsWith "[" then
          [{ type := "vec", text := t, weight := 1 }]
        else []
      | none => []
    let hydePart : List QueryExpansion :=
      match g (hydePrompt query) with
      | some raw =>
        let t := trimSpace raw
        if t ≠ "" ∧ ¬ t.startsWith "[" then
          [{ type := "hyde", text := t, weight := 8/10 }]
        else []
      | none => []
    expansions ++ vecPart ++ hydePart
  | none =>
    if words.length ≥ 3 then
      expansions ++
        [{ type := "vec", text := " ".intercalate keywords.reverse, weight := 6/10 }]
    else expansions

/-- C5: counterexample.  For the one-keyword query `"hello"` (no generative
capability needed for this part of the claim), `ExpandQuery` emits ONLY the
two original-query expansions: the salient keyword `"hello"` is NOT
appended as `lex` with weight 0.5, because the keyword loop only runs when
there are at least two keywords (`len(keywords) > 1`). -/
theorem C5_counterexample :
    ExpandQuery "hello" none =
      [{ type := "lex", text := "hello", weight := 2 },
       { type := "vec", text := "hello", weight := 2 }] ∧
    ({ type := "lex", text := "hello", weight := 1/2 } : QueryExpansion) ∉
      [({ type := "lex", text := "hello", weight := 2 } : QueryExpansion),
       { type := "vec", text := "hello", weight := 2 }] := by
  constructor
  · decide
  · norm_num

/-- C5 (amended): `ExpandQuery` always starts with the original query as
`lex` and `vec`, each with weight 2.0.  Each salient keyword is appended as
`lex` 0.5 only when there are at least two keywords; each bigram of
adjacent keywords as `lex` 0.7 only when there are at least three.  With a
generative capability, the paraphrase is appended as `vec` 1.0 only when
generation succeeds and the trimmed text is nonempty, differs from the
query, and does not start with `[`; the hypothetical answer as `hyde` 0.8
only when generation succeeds and the trimmed text is nonempty and does not
start with `[`. -/
theorem ExpandQuery_mem_core (query : String) (gen : Option (String → Option String))
    (e : QueryExpansion)
    (he : e ∈ ([{ type := "lex", text := query, weight := 2 },
                { type := "vec", text := query, weight := 2 }] ++
               (if (queryKeywords query).length > 1 then
                  (queryKeywords query).map
                    (fun kw => { type := "lex", text := kw, weight := 1/2 })
                else []) ++
               (if (queryKeywords query).length > 2 then
                  ((queryKeywords query).zip (queryKeywords query).tail).map
                    (fun p => { type := "lex", text := p.1 ++ " " ++ p.2, weight := 7/10 })
                else []))) : e ∈ ExpandQuery query gen := by
  have hkw : List.filter (fun w => decide (w.length > 2)) (splitQueryWords query) =
      queryKeywords query := rfl
  cases gen with
  | some g =>
    simp only [ExpandQuery, hkw]
    simp only [List.mem_append] at he ⊢
    tauto
  | none =>
    simp only [ExpandQuery, hkw]
    by_cases h : (splitQueryWords query).length ≥ 3 <;>
      simp only [h, ite_true, ite_false, List.mem_append] at he ⊢ <;> tauto

theorem C5_expansions (query : String) (gen : Option (String → Option String)) :
    ((ExpandQuery query gen).take 2 =
      [{ type := "lex", text := query, weight := 2 },
       { type := "vec", text := query, weight := 2 }]) ∧
    (1 < (queryKeywords query).length →
       ∀ kw ∈ queryKeywords query,
         ({ type := "lex", text := kw, weight := 1/2 } : QueryExpansion) ∈
           ExpandQuery query gen) ∧
    (2 < (queryKeywords query).length →
       ∀ p ∈ (queryKeywords query).zip (queryKeywords query).tail,
         ({ type := "lex", text := p.1 ++ " " ++ p.2, weight := 7/10 } : QueryExpansion) ∈
           ExpandQuery query gen) ∧
    (∀ g raw, gen = some g → g (vecPrompt query) = some raw →
       trimSpace raw ≠ "" → trimSpace raw ≠ query → ¬ (trimSpace raw).startsWith "[" →
       ({ type := "vec", text := trimSpace raw, weight := 1 } : QueryExpansion) ∈
         ExpandQuery query gen) ∧
    (∀ g raw, gen = some g → g (hydePrompt query) = some raw →
       trimSpace raw ≠ "" → ¬ (trimSpace raw).startsWith "[" →
       ({ type := "hyde", text := trimSpace raw, weight := 8/10 } : QueryExpansion) ∈
         ExpandQuery query gen) := by
  have hkw : List.filter (fun w => decide (w.length > 2)) (splitQueryWords query) =
      queryKeywords query := rfl
  refine ⟨?_, ?_, ?_, ?_, ?_⟩
  · cases gen with
    | none =>
      simp only [ExpandQuery, hkw]
      by_cases h : (splitQueryWords query).length ≥ 3 <;>
        simp [h, List.append_assoc, List.take]
    | some g =>
      simp only [ExpandQuery, hkw]
      simp [List.append_assoc, List.take]
  · intro hlen kw hkwmem
    refine ExpandQuery_mem_core query gen _ ?_
    simp only [List.mem_append]
    left; right
    rw [if_pos hlen]
    exact List.mem_map.mpr ⟨kw, hkwmem, rfl⟩
  · intro hlen p hpmem
    refine ExpandQuery_mem_core query gen _ ?_
    simp only [List.mem_append]
    right
    rw [if_pos hlen]
    exact List.mem_map.mpr ⟨p, hpmem, rfl⟩
  · rintro g raw rfl hgen hne hneq hbr
    simp only [ExpandQuery, hkw, hgen, List.mem_append]
    left; right
    rw [if_pos ⟨hne, hneq, hbr⟩]
    exact List.mem_singleton.mpr rfl
  · rintro g raw rfl hgen hne hbr
    simp only [ExpandQuery, hkw, hgen, List.mem_append]
    right
    rw [if_pos ⟨hne, hbr⟩]
    exact List.mem_singleton.mpr rfl

/-- C5 witness: for the three-keyword query `"alpha beta gamma"` without a
generative capability, the keyword-expansion guard holds and the theorem
yields the keyword expansion `(lex, "alpha", 0.5)`. -/
theorem C5_expansions_witness :
    1 < (queryKeywords "alpha beta gamma").length ∧
    ({ type := "lex", text := "alpha", weight := 1/2 } : QueryExpansion) ∈
      ExpandQuery "alpha beta gamma" none :=
  ⟨by decide, (C5_expansions "alpha beta gamma" none).2.1 (by decide) "alpha" (by decide)⟩

/-! ### Memory deletion (`Store.DeleteMemory`)

`DeleteMemory` issues `DELETE FROM memories WHERE id LIKE ?` with pattern
`id + "%"` when the argument is shorter than a full UUID (36 characters),
and `DELETE … WHERE id = ?` otherwise, then errors iff `RowsAffected()` is
zero.  SQLite's default `LIKE` is modelled exactly: `%` matches any
character sequence, `_` any single character, and ordinary characters match
ASCII-case-insensitively.  `=` uses the default BINARY collation (the
`memories.id` column declares no collation), hence exact comparison. -/

/-- A row of the `memories` table (only the columns consulted by
`DeleteMemory`; the remaining columns do not influence deletion). -/
structure MemoryRow where
  id : String
  content : String
  deriving DecidableEq

/-- SQLite `LIKE` ASCII case folding: upper-case ASCII letters compare
equal to their lower-case forms. -/
def likeFold (c : Char) : Char :=
  if 'A' ≤ c ∧ c ≤ 'Z' then Char.ofNat (c.toNat + 32) else c

/-- SQLite `LIKE` pattern matching (no ESCAPE clause). -/
def likeMatch : List Char → List Char → Bool
  | [], t => t.isEmpty
  | c :: ps, t =>
    if c = '%' then
      likeMatch ps t ||
        (match t with
         | [] => false
         | _ :: ts => likeMatch (c :: ps) ts)
    else
      match t with
      | [] => false
      | d :: ts =>
        if c = '_' then likeMatch ps ts
        else (likeFold c = likeFold d) && likeMatch ps ts
termination_by p t => (p.length, t.length)

/-- The row predicate of `DeleteMemory`'s `DELETE` statement. -/
def deleteMatches (id rowId : String) : Bool :=
  if id.length < 36 then likeMatch (id.toList ++ ['%']) rowId.toList
  else rowId == id

/-- `Store.DeleteMemory`: delete the matching rows; error iff
`RowsAffected()` is zero. -/
def DeleteMemory (rows : List MemoryRow) (id : String) :
    Except String (List MemoryRow) :=
  let remaining := rows.filter (fun r => ! deleteMatches id r.id)
  if rows.length - remaining.length = 0 then
    Except.error ("no memory found with ID prefix: " ++ id)
  else Except.ok remaining

theorem likeMatch_percent_any : ∀ t : List Char, likeMatch ['%'] t = true := by
  intro t
  induction t with
  | nil => simp [likeMatch]
  | cons d ts ih => simp [likeMatch, ih]

theorem likeMatch_percent_cons (ps t : List Char) (h : likeMatch ps t = true) :
    likeMatch ('%' :: ps) t = true := by
  cases t <;> simp [likeMatch, h]

theorem likeMatch_self_append_percent :
    ∀ p t : List Char, likeMatch (p ++ ['%']) (p ++ t) = true := by
  intro p
  induction p with
  | nil => intro t; simpa using likeMatch_percent_any t
  | cons c p ih =>
    intro t
    by_cases hc : c = '%'
    · subst hc
      have h2 := likeMatch_percent_cons (p ++ ['%']) (p ++ t) (ih t)
      simp [likeMatch, h2]
    · by_cases hu : c = '_'
      · subst hu
        simp [likeMatch, ih t]
      · simp [likeMatch, hc, hu, ih t]

/-- C9: for an id argument shorter than 36 characters, `DeleteMemory`
deletes every memory whose id begins with that argument (possibly several
at once) and returns a success with the remaining rows; a 36-character-or-
longer argument deletes only the exact id match; and in both regimes the
call returns an error if and only if zero rows matched the delete
predicate. -/
theorem C9_delete_by_id (rows : List MemoryRow) (id : String) :
    (id.length < 36 → ∀ r ∈ rows, id.toList.isPrefixOf r.id.toList = true →
       ∃ rem, DeleteMemory rows id = Except.ok rem ∧ r ∉ rem) ∧
    (36 ≤ id.length → ∀ rem, DeleteMemory rows id = Except.ok rem →
       ∀ r ∈ rows, (r ∉ rem ↔ r.id = id)) ∧
    ((∃ msg, DeleteMemory rows id = Except.error msg) ↔
       rows.filter (fun r => deleteMatches id r.id) = []) := by
  refine ⟨?_, ?_, ?_⟩
  · intro hshort r hr hpre
    have hmatch : deleteMatches id r.id = true := by
      unfold deleteMatches
      rw [if_pos hshort]
      obtain ⟨t, ht⟩ := (List.isPrefixOf_iff_prefix.mp hpre)
      rw [← ht]
      exact likeMatch_self_append_percent id.toList t
    have hdrop : (rows.filter (fun r => ! deleteMatches id r.id)).length < rows.length := by
      rw [List.length_filter_lt_length_iff_exists]
      exact ⟨r, hr, by simp [hmatch]⟩
    refine ⟨rows.filter (fun r => ! deleteMatches id r.id), ?_, ?_⟩
    · unfold DeleteMemory
      rw [if_neg (by omega)]
    · intro hmem
      have := (List.mem_filter.mp hmem).2
      simp [hmatch] at this
  · intro hlong rem hok r hr
    have hm : deleteMatches id r.id = (r.id == id) := by
      unfold deleteMatches
      rw [if_neg (by omega)]
    have hrem : rem = rows.filter (fun r => ! deleteMatches id r.id) := by
      unfold DeleteMemory at hok
      by_cases hz : rows.length - (rows.filter (fun r => ! deleteMatches id r.id)).length = 0
      · rw [if_pos hz] at hok; cases hok
      · rw [if_neg hz] at hok; exact (Except.ok.injEq _ _).mp hok.symm
    subst hrem
    constructor
    · intro hnot
      by_contra hne
      exact hnot (List.mem_filter.mpr ⟨hr, by simp [hm, hne]⟩)
    · intro heq hmem
      have hfalse : deleteMatches id r.id = false := by
        simpa using (List.mem_filter.mp hmem).2
      rw [hm, heq] at hfalse
      simp at hfalse
  · constructor
    · rintro ⟨msg, hmsg⟩
      unfold DeleteMemory at hmsg
      by_cases hz : rows.length - (rows.filter (fun r => ! deleteMatches id r.id)).length = 0
      · rw [List.filter_eq_nil_iff]
        intro r hr hmatch
        have hlt : (rows.filter (fun r => ! deleteMatches id r.id)).length < rows.length := by
          rw [List.length_filter_lt_length_iff_exists]
          exact ⟨r, hr, by simp [hmatch]⟩
        omega
      · rw [if_neg hz] at hmsg; cases hmsg
    · intro hnil
      refine ⟨"no memory found with ID prefix: " ++ id, ?_⟩
      unfold DeleteMemory
      rw [if_pos ?_]
      have hall : ∀ r ∈ rows, deleteMatches id r.id = false := by
        intro r hr
        have := List.filter_eq_nil_iff.mp hnil r hr
        simpa using this
      have : rows.filter (fun r => ! deleteMatches id r.id) = rows := by
        apply List.filter_eq_self.mpr
        intro r hr
        simp [hall r hr]
      rw [this]
      omega

/-- C9 witness: deleting with the 3-character argument `"abc"` from a table
holding the single row with id `"abc123"` succeeds and removes that row. -/
theorem C9_delete_witness :
    ("abc".length < 36 ∧ ("abc".toList.isPrefixOf "abc123".toList) = true) ∧
    ∃ rem, DeleteMemory [⟨"abc123", "x"⟩] "abc" = Except.ok rem ∧
      (⟨"abc123", "x"⟩ : MemoryRow) ∉ rem :=
  ⟨⟨by decide, by decide⟩,
   (C9_delete_by_id [⟨"abc123", "x"⟩] "abc").1 (by decide) ⟨"abc123", "x"⟩
     (by decide) (by decide)⟩

/-! ### Chunker (`pkg/store/chunking.go`)

Positions are Go `int`s, modelled as `ℤ`.  Go string indexing/slicing can
panic; a panic is modelled as `none`.  Division in `findBreakPoint` is Go's
truncated integer division (`Int.tdiv`).  The content is a character list
(the concrete inputs below are ASCII, where Go's byte indexing and
character indexing coincide). -/

/-- `store.Chunk` (the `Tokens` field is only set by `ChunkWithTokenLimit`
and is omitted). -/
structure Chunk where
  text : List Char
  pos : Int
  deriving DecidableEq

/-- Go slicing `content[a:b]`: defined iff `0 ≤ a ≤ b ≤ len(content)`,
otherwise a runtime panic (`none`). -/
def goSlice (content : List Char) (a b : Int) : Option (List Char) :=
  if 0 ≤ a ∧ a ≤ b ∧ b ≤ (content.length : Int) then
    some ((content.drop a.toNat).take (b - a).toNat)
  else none

/-- Whether `sub` occurs in `s` starting at position `i`. -/
def occursAt (s sub : List Char) (i : Nat) : Bool :=
  sub.isPrefixOf (s.drop i)

/-- `strings.LastIndex(s, sub)`: the largest index of an occurrence of
`sub` in `s`, or `-1` if there is none. -/
def lastIndex (s sub : List Char) : Int :=
  match ((List.range (s.length + 1)).filter (occursAt s sub)).getLast? with
  | some i => (i : Int)
  | none => -1

/-- The sentence terminators searched by `findBreakPoint`, in source
order. -/
def sentenceEndings : List (List Char) :=
  [['.', '\n'], ['!', '\n'], ['?', '\n'], ['.', ' '], ['!', ' '], ['?', ' ']]

/-- `searchStart := start + (end-start)*7/10`, clamped below by `start`
(Go's `/` on `int` is truncated division, `Int.tdiv`). -/
def fbpSearchStart (start endP : Int) : Int :=
  if start + Int.tdiv ((endP - start) * 7) 10 < start then start
  else start + Int.tdiv ((endP - start) * 7) 10

/-- The `maxIdx` accumulation over the sentence endings: the largest
`strings.LastIndex` of any ending, starting from `-1`. -/
def sentenceMax (searchRange : List Char) : Int :=
  sentenceEndings.foldl
    (fun acc e => if acc < lastIndex searchRange e then lastIndex searchRange e
                  else acc) (-1)

/-- `store.findBreakPoint`: look for the best natural boundary in the last
30% of `[start, endP)` — paragraph break, then sentence ending, then line
break, then word break — falling back to a hard cut at `endP`. -/
def findBreakPoint (content : List Char) (start endP : Int) : Option Int :=
  if (content.length : Int) ≤ endP then some content.length
  else
    match goSlice content (fbpSearchStart start endP) endP with
    | none => none
    | some searchRange =>
      if lastIndex searchRange ['\n', '\n'] ≠ -1 then
        some (fbpSearchStart start endP + lastIndex searchRange ['\n', '\n'] + 2)
      else if sentenceMax searchRange ≠ -1 then
        some (fbpSearchStart start endP + sentenceMax searchRange + 1)
      else if lastIndex searchRange ['\n'] ≠ -1 then
        some (fbpSearchStart start endP + lastIndex searchRange ['\n'] + 1)
      else if lastIndex searchRange [' '] ≠ -1 then
        some (fbpSearchStart start endP + lastIndex searchRange [' '] + 1)
      else some endP

/-- The loop body of `ChunkDocument`.  `fuel` bounds the number of
iterations; it is spent only while the loop condition `charPos < len`
holds, and the main theorem shows `len + 1` units always suffice, so `none`
only ever reports a slicing panic. -/
def chunkLoop (content : List Char) (size ov : Int) :
    Nat → Int → Option (List Chunk)
  | fuel, charPos =>
    if charPos < (content.length : Int) then
      match fuel with
      | 0 => none
      | fuel + 1 =>
        let endP := if (content.length : Int) < charPos + size
                    then (content.length : Int) else charPos + size
        match findBreakPoint content charPos endP with
        | none => none
        | some breakPos =>
          match goSlice content charPos breakPos with
          | none => none
          | some chunkText =>
            let emit := (trimSpaceList chunkText).length > 0
            let nextPos := if breakPos - ov ≤ charPos then breakPos
                           else breakPos - ov
            if (content.length : Int) ≤ breakPos then
              some (if emit then [{ text := chunkText, pos := charPos }] else [])
            else
              match chunkLoop content size ov fuel nextPos with
              | none => none
              | some rest =>
                some (if emit then { text := chunkText, pos := charPos } :: rest
                      else rest)
    else some []

/-- `store.ChunkDocument`: parameters equal to 0 select the defaults
(3200-character chunks, 480-character overlap). -/
def ChunkDocument (content : List Char) (chunkSize chunkOverlap : Int) :
    Option (List Chunk) :=
  let size := if chunkSize = 0 then 3200 else chunkSize
  let ov := if chunkOverlap = 0 then 480 else chunkOverlap
  chunkLoop content size ov (content.length + 1) 0

theorem lastIndex_le (s sub : List Char) : lastIndex s sub ≤ (s.length : Int) := by
  unfold lastIndex
  cases hl : ((List.range (s.length + 1)).filter (occursAt s sub)).getLast? with
  | none => simp; omega
  | some i =>
    have hmem := List.mem_of_mem_getLast? (Option.mem_def.mpr hl)
    have := List.mem_range.mp (List.mem_filter.mp hmem).1
    simp
    omega

theorem neg_one_le_lastIndex (s sub : List Char) : -1 ≤ lastIndex s sub := by
  unfold lastIndex
  cases hl : ((List.range (s.length + 1)).filter (occursAt s sub)).getLast? with
  | none => simp
  | some i => simp; omega

theorem lastIndex_occurs (s sub : List Char) (h : lastIndex s sub ≠ -1) :
    ∃ i : Nat, lastIndex s sub = (i : Int) ∧ occursAt s sub i = true ∧
      i ≤ s.length := by
  unfold lastIndex at h ⊢
  cases hl : ((List.range (s.length + 1)).filter (occursAt s sub)).getLast? with
  | none => simp [hl] at h
  | some i =>
    have hmem := List.mem_of_mem_getLast? (Option.mem_def.mpr hl)
    have h1 := (List.mem_filter.mp hmem).2
    have h2 := List.mem_range.mp (List.mem_filter.mp hmem).1
    exact ⟨i, rfl, h1, by omega⟩

theorem occursAt_bound (s sub : List Char) (i : Nat) (h : occursAt s sub i = true)
    (hle : i ≤ s.length) : i + sub.length ≤ s.length := by
  unfold occursAt at h
  have := (List.isPrefixOf_iff_prefix.mp h).length_le
  rw [List.length_drop] at this
  omega

theorem foldl_lastIndex_bounds (s : List Char) (pats : List (List Char)) :
    ∀ acc : Int, -1 ≤ acc → acc ≤ (s.length : Int) →
      -1 ≤ pats.foldl
          (fun acc e => if acc < lastIndex s e then lastIndex s e else acc) acc ∧
      pats.foldl
          (fun acc e => if acc < lastIndex s e then lastIndex s e else acc) acc ≤
        (s.length : Int) := by
  induction pats with
  | nil => intro acc h1 h2; exact ⟨h1, h2⟩
  | cons e es ih =>
    intro acc h1 h2
    simp only [List.foldl_cons]
    by_cases hc : acc < lastIndex s e
    · rw [if_pos hc]
      exact ih _ (neg_one_le_lastIndex s e) (lastIndex_le s e)
    · rw [if_neg hc]
      exact ih _ h1 h2

theorem goSlice_eq (content : List Char) (a b : Int) (h0 : 0 ≤ a) (hab : a ≤ b)
    (hb : b ≤ (content.length : Int)) :
    goSlice content a b = some ((content.drop a.toNat).take (b - a).toNat) := by
  unfold goSlice
  rw [if_pos ⟨h0, hab, hb⟩]

theorem goSlice_len (content : List Char) (a b : Int) (h0 : 0 ≤ a) (hab : a ≤ b)
    (hb : b ≤ (content.length : Int)) :
    (((content.drop a.toNat).take (b - a).toNat).length : Int) = b - a := by
  rw [List.length_take, List.length_drop]
  omega

theorem fbpSearchStart_bounds (start endP : Int) (h : start < endP) :
    start ≤ fbpSearchStart start endP ∧ fbpSearchStart start endP ≤ endP := by
  have htd1 : 0 ≤ Int.tdiv ((endP - start) * 7) 10 :=
    Int.tdiv_nonneg (by omega) (by norm_num)
  have htd2 : Int.tdiv ((endP - start) * 7) 10 ≤ endP - start := by
    rw [Int.tdiv_eq_ediv (by omega) (by norm_num)]
    omega
  unfold fbpSearchStart
  split <;> omega

theorem findBreakPoint_spec (content : List Char) (start endP : Int)
    (h0 : 0 ≤ start) (hlt : start < (content.length : Int))
    (hd : start < endP) (hle : endP ≤ (content.length : Int)) :
    ∃ b, findBreakPoint content start endP = some b ∧ start < b ∧
      b ≤ (content.length : Int) := by
  unfold findBreakPoint
  by_cases hend : (content.length : Int) ≤ endP
  · exact ⟨content.length, by rw [if_pos hend], hlt, le_refl _⟩
  · rw [if_neg hend]
    obtain ⟨hss1, hss2⟩ := fbpSearchStart_bounds start endP hd
    have hsr := goSlice_eq content (fbpSearchStart start endP) endP
      (by omega) (by omega) (by omega)
    simp only [hsr]
    set ss := fbpSearchStart start endP with hssdef
    set sr := (content.drop ss.toNat).take (endP - ss).toNat with hsrdef
    have hsrlen : ((sr.length : Nat) : Int) = endP - ss :=
      goSlice_len content ss endP (by omega) (by omega) (by omega)
    by_cases h1 : lastIndex sr ['\n', '\n'] ≠ -1
    · rw [if_pos h1]
      obtain ⟨i, hi, hocc, hile⟩ := lastIndex_occurs sr _ h1
      have hbound := occursAt_bound sr _ i hocc hile
      simp only [List.length_cons, List.length_nil] at hbound
      rw [hi]
      exact ⟨_, rfl, by omega, by omega⟩
    · rw [if_neg h1]
      by_cases h2 : sentenceMax sr ≠ -1
      · rw [if_pos h2]
        have h2b : -1 ≤ sentenceMax sr ∧ sentenceMax sr ≤ (sr.length : Int) := by
          unfold sentenceMax
          exact foldl_lastIndex_bounds sr sentenceEndings (-1) (by norm_num) (by omega)
        exact ⟨_, rfl, by omega, by omega⟩
      · rw [if_neg h2]
        by_cases h3 : lastIndex sr ['\n'] ≠ -1
        · rw [if_pos h3]
          have ha := neg_one_le_lastIndex sr ['\n']
          have hb := lastIndex_le sr ['\n']
          exact ⟨_, rfl, by omega, by omega⟩
        · rw [if_neg h3]
          by_cases h4 : lastIndex sr [' '] ≠ -1
          · rw [if_pos h4]
            have ha := neg_one_le_lastIndex sr [' ']
            have hb := lastIndex_le sr [' ']
            exact ⟨_, rfl, by omega, by omega⟩
          · rw [if_neg h4]
            exact ⟨endP, rfl, hd, by omega⟩

theorem chunkLoop_spec (content : List Char) (size ov : Int)
    (hsize : 0 < size) (hov : 0 < ov) :
    ∀ (fuel : Nat) (charPos : Int), 0 ≤ charPos →
      (content.length : Int) < charPos + fuel →
      ∃ chunks, chunkLoop content size ov fuel charPos = some chunks ∧
        (∀ c ∈ chunks, charPos ≤ c.pos) ∧
        List.Chain' (fun a b => a.pos < b.pos) chunks ∧
        List.Chain' (fun a b => a.pos + (a.text.length : Int) ≤ b.pos + ov) chunks := by
  intro fuel
  induction fuel with
  | zero =>
    intro charPos h0 hfuel
    refine ⟨[], ?_, by simp, List.chain'_nil, List.chain'_nil⟩
    unfold chunkLoop
    rw [if_neg (by push_cast at hfuel ⊢; omega)]
  | succ fuel ih =>
    intro charPos h0 hfuel
    by_cases hguard : charPos < (content.length : Int)
    · obtain ⟨b, hb, hb1, hb2⟩ := findBreakPoint_spec content charPos
        (if (content.length : Int) < charPos + size then (content.length : Int)
         else charPos + size) h0 hguard (by split <;> omega) (by split <;> omega)
      have hsl := goSlice_eq content charPos b (by omega) (by omega) (by omega)
      set chunkText := (content.drop charPos.toNat).take (b - charPos).toNat with hct
      have hctlen : ((chunkText.length : Nat) : Int) = b - charPos :=
        goSlice_len content charPos b (by omega) (by omega) (by omega)
      have hnext : charPos <
          (if b - ov ≤ charPos then b else b - ov) := by split <;> omega
      have hnext2 : b - ov ≤ (if b - ov ≤ charPos then b else b - ov) := by
        split <;> omega
      by_cases hlast : (content.length : Int) ≤ b
      · refine ⟨(if (trimSpaceList chunkText).length > 0 then
            [{ text := chunkText, pos := charPos }] else []), ?_, ?_, ?_, ?_⟩
        · unfold chunkLoop
          rw [if_pos hguard]
          simp only [hb, hsl]
          rw [if_pos hlast]
        · split <;> simp
        · split <;> simp
        · split <;> simp
      · obtain ⟨rest, hrest, hrpos, hrlt, hrov⟩ :=
          ih (if b - ov ≤ charPos then b else b - ov) (by omega) (by push_cast at hfuel ⊢; omega)
        refine ⟨(if (trimSpaceList chunkText).length > 0 then
            { text := chunkText, pos := charPos } :: rest else rest), ?_, ?_, ?_, ?_⟩
        · unfold chunkLoop
          rw [if_pos hguard]
          simp only [hb, hsl]
          rw [if_neg hlast, hrest]
        · intro c hc
          by_cases he : (trimSpaceList chunkText).length > 0
          · rw [if_pos he] at hc
            rcases List.mem_cons.mp hc with rfl | hc
            · exact le_refl _
            · have := hrpos c hc
              omega
          · rw [if_neg he] at hc
            have := hrpos c hc
            omega
        · by_cases he : (trimSpaceList chunkText).length > 0
          · rw [if_pos he]
            refine List.chain'_cons'.mpr ⟨?_, hrlt⟩
            intro y hy
            have hyr := hrpos y (List.mem_of_mem_head? hy)
            simp only []
            omega
          · rw [if_neg he]
            exact hrlt
        · by_cases he : (trimSpaceList chunkText).length > 0
          · rw [if_pos he]
            refine List.chain'_cons'.mpr ⟨?_, hrov⟩
            intro y hy
            have hyr := hrpos y (List.mem_of_mem_head? hy)
            simp only [hctlen]
            omega
          · rw [if_neg he]
            exact hrov
    · refine ⟨[], ?_, by simp, List.chain'_nil, List.chain'_nil⟩
      unfold chunkLoop
      rw [if_neg hguard]

/-- C8 (amended): chunk-size and overlap parameters equal to 0 are replaced
by the defaults 3200 and 480; for every content and every pair of POSITIVE
parameters, `ChunkDocument` terminates normally, the emitted chunks have
strictly increasing start positions, and successive chunks overlap by at
most `overlap` characters. -/
theorem C8_chunk_invariants (content : List Char) (chunkSize chunkOverlap : Int)
    (hsize : 0 < chunkSize) (hov : 0 < chunkOverlap) :
    ∃ chunks, ChunkDocument content chunkSize chunkOverlap = some chunks ∧
      List.Chain' (fun a b => a.pos < b.pos) chunks ∧
      List.Chain' (fun a b => a.pos + (a.text.length : Int) ≤ b.pos + chunkOverlap)
        chunks := by
  obtain ⟨chunks, hc, _, hlt, hovl⟩ := chunkLoop_spec content chunkSize chunkOverlap
    hsize hov (content.length + 1) 0 (le_refl _) (by push_cast; omega)
  refine ⟨chunks, ?_, hlt, hovl⟩
  unfold ChunkDocument
  rw [if_neg (by omega), if_neg (by omega)]
  exact hc

/-- C8 witness: chunking the five-character content `"ab cd"` with chunk
size 3 and overlap 1 terminates with the stated invariants. -/
theorem C8_chunk_witness :
    ((0 : Int) < 3 ∧ (0 : Int) < 1) ∧
    ∃ chunks, ChunkDocument "ab cd".toList 3 1 = some chunks ∧
      List.Chain' (fun a b => a.pos < b.pos) chunks ∧
      List.Chain' (fun a b => a.pos + (a.text.length : Int) ≤ b.pos + 1) chunks :=
  ⟨⟨by norm_num, by norm_num⟩,
   C8_chunk_invariants "ab cd".toList 3 1 (by norm_num) (by norm_num)⟩

/-- The `(start, end)` spans of the chunks of a `ChunkDocument` result. -/
def chunkSpans (o : Option (List Chunk)) : List (Int × Int) :=
  (o.getD []).map (fun c => (c.pos, c.pos + (c.text.length : Int)))

set_option maxRecDepth 100000 in
/-- C8: counterexample.  With an overlap PARAMETER of 0 the code silently
substitutes the default overlap 480, so chunking 1200 non-break characters
with chunk size 1000 and requested overlap 0 yields spans `[0,1000)` and
`[520,1200)`: the successive chunks overlap by 480 characters, not by at
most `overlap = 0` as the claim states for every parameter pair. -/
theorem C8_counterexample :
    chunkSpans (ChunkDocument (List.replicate 1200 'a') 1000 0) =
      [(0, 1000), (520, 1200)] ∧
    ¬ ((1000 : Int) ≤ 520 + 0) := by
  constructor
  · decide
  · norm_num

/-! ### Search results and descending sort by score

`store.SearchResult` (the `Snippet` and `Timestamp` fields are produced by
snippet extraction and RFC-3339 parsing, never consulted by the ranking
algorithms under verification, and omitted).  `sort.Slice(results, Score >)`
only promises a sorted permutation; it is modelled by insertion sort, shown
below to sort and to permute. -/

structure SearchResult where
  id : String
  score : ℚ
  title : String
  content : String
  source : String
  collection : String
  path : String
  deriving DecidableEq

/-- Insert into a descending-by-score list. -/
def insertScoreDesc (x : SearchResult) : List SearchResult → List SearchResult
  | [] => [x]
  | y :: ys => if y.score < x.score then x :: y :: ys else y :: insertScoreDesc x ys

/-- Model of `sort.Slice(results, func(i, j) { Score[i] > Score[j] })`. -/
def sortScoreDesc (l : List SearchResult) : List SearchResult :=
  l.foldr insertScoreDesc []

theorem insertScoreDesc_perm (x : SearchResult) (l : List SearchResult) :
    List.Perm (insertScoreDesc x l) (x :: l) := by
  induction l with
  | nil => exact List.Perm.refl _
  | cons y ys ih =>
    unfold insertScoreDesc
    by_cases hc : y.score < x.score
    · rw [if_pos hc]
    · rw [if_neg hc]
      exact (ih.cons y).trans (List.Perm.swap x y ys)

theorem sortScoreDesc_perm (l : List SearchResult) :
    List.Perm (sortScoreDesc l) l := by
  induction l with
  | nil => exact List.Perm.refl _
  | cons y ys ih =>
    unfold sortScoreDesc
    simp only [List.foldr_cons]
    exact (insertScoreDesc_perm y (sortScoreDesc ys)).trans (ih.cons y)

theorem insertScoreDesc_sorted (x : SearchResult) (l : List SearchResult)
    (h : l.Sorted (fun a b => b.score ≤ a.score)) :
    (insertScoreDesc x l).Sorted (fun a b => b.score ≤ a.score) := by
  induction l with
  | nil => simp [insertScoreDesc]
  | cons y ys ih =>
    rw [List.sorted_cons] at h
    obtain ⟨hy, hys⟩ := h
    unfold insertScoreDesc
    by_cases hc : y.score < x.score
    · rw [if_pos hc]
      rw [List.sorted_cons]
      refine ⟨?_, List.sorted_cons.mpr ⟨hy, hys⟩⟩
      intro b hb
      rcases List.mem_cons.mp hb with rfl | hb
      · exact le_of_lt hc
      · exact le_trans (hy b hb) (le_of_lt hc)
    · rw [if_neg hc]
      rw [List.sorted_cons]
      refine ⟨?_, ih hys⟩
      intro b hb
      rcases List.mem_cons.mp ((insertScoreDesc_perm x ys).mem_iff.mp hb) with rfl | hb2
      · exact le_of_not_lt hc
      · exact hy b hb2

theorem sortScoreDesc_sorted (l : List SearchResult) :
    (sortScoreDesc l).Sorted (fun a b => b.score ≤ a.score) := by
  induction l with
  | nil => exact List.sorted_nil
  | cons y ys ih =>
    unfold sortScoreDesc
    simp only [List.foldr_cons]
    exact insertScoreDesc_sorted y (sortScoreDesc ys) ih

/-! ### Chunk-level dense search (`Store.SearchVector`)

The SQL scan (joining `content_vectors`, `documents`, `content`, restricted
to active documents and the optional collection filter) with the cosine
distance already computed per row is the input `cands`; the claim under
test concerns everything after the distances exist.  The `seen` Go map is
an association list in insertion order; the map's randomized iteration
order in the emission loop is the explicit `mapOrder` argument (a
permutation of the map's keys). -/

/-- One scanned candidate row of `SearchVector` (hash, seq, its cosine
distance to the query, and the joined document columns). -/
structure VecCand where
  hash : String
  seq : Nat
  distance : ℚ
  collection : String
  path : String
  title : String
  body : String
  deriving DecidableEq

/-- Insert into an ascending-by-distance list. -/
def insertDistAsc (x : VecCand) : List VecCand → List VecCand
  | [] => [x]
  | y :: ys => if x.distance < y.distance then x :: y :: ys else y :: insertDistAsc x ys

/-- Model of `sort.Slice(candidates, distance <)`. -/
def sortDistAsc (l : List VecCand) : List VecCand := l.foldr insertDistAsc []

/-- The `seen` dedup map: per hash, keep the candidate with the smaller
distance (`!ok || c.distance < existing.distance`). -/
def SearchVectorDedup (cands : List VecCand) : List (String × VecCand) :=
  cands.foldl (fun seen c =>
    match assocGet? seen c.hash with
    | none => assocSet seen c.hash c
    | some existing =>
      if c.distance < existing.distance then assocSet seen c.hash c else seen) []

/-- `Store.SearchVector` after the distance computation: sort candidates by
distance ascending, dedup per hash keeping the best chunk, then iterate the
`seen` map in `mapOrder` BREAKING OUT once `limit` entries are collected,
convert to results with score `1 - distance` and source `vector`, sort by
score descending, and truncate (a no-op, as at most `limit` entries were
collected). -/
def SearchVector (cands : List VecCand) (limit : Nat) (mapOrder : List String) :
    List SearchResult :=
  let sorted := sortDistAsc cands
  let seen := SearchVectorDedup sorted
  let picked := (mapOrder.filterMap (fun key => assocGet? seen key)).take limit
  let results := picked.map (fun c =>
    { id := c.hash, score := 1 - c.distance, title := c.title, content := c.body,
      source := "vector", collection := c.collection, path := c.path })
  let results := sortScoreDesc results
  if limit < results.length then results.take limit else results

/-- A candidate chunk of document `h` at distance `d`. -/
def vcand (h : String) (d : ℚ) : VecCand :=
  { hash := h, seq := 0, distance := d, collection := "c", path := h,
    title := h, body := "b" }

/-- C2: the code bug at a concrete input.  Three documents at minimum
distances 1/10, 2/10, 3/10 and limit 2: because the emission loop breaks
out of the (randomly ordered) map iteration BEFORE the final sort, the map
order (h3, h1, h2) returns documents h1 and h3 — not the two smallest-
distance documents h1 and h2 — while the map order (h1, h2, h3) returns h1
and h2.  The returned set therefore depends on Go's randomized map
iteration order and is not always the `limit` documents of smallest minimum
distance. -/
theorem C2_searchVector_bug :
    (SearchVector [vcand "h1" (1/10), vcand "h2" (2/10), vcand "h3" (3/10)] 2
        ["h3", "h1", "h2"]).map (fun r => r.id) = ["h1", "h3"] ∧
    (SearchVector [vcand "h1" (1/10), vcand "h2" (2/10), vcand "h3" (3/10)] 2
        ["h1", "h2", "h3"]).map (fun r => r.id) = ["h1", "h2"] := by
  have b12 : (("h1" : String) == "h2") = false := by decide
  have b13 : (("h1" : String) == "h3") = false := by decide
  have b21 : (("h2" : String) == "h1") = false := by decide
  have b23 : (("h2" : String) == "h3") = false := by decide
  have b31 : (("h3" : String) == "h1") = false := by decide
  have b32 : (("h3" : String) == "h2") = false := by decide
  constructor <;>
    norm_num [SearchVector, sortDistAsc, insertDistAsc, SearchVectorDedup,
      assocGet?, assocSet, assocHas, sortScoreDesc, insertScoreDesc, vcand,
      List.filterMap, List.find?, List.foldl,
      b12, b13, b21, b23, b31, b32]

/-! ### Reciprocal Rank Fusion (`store.ReciprocalRankFusion`)

The fused accumulator is a Go map from the result's stable key (id if
nonempty, else path) to `(result, rrfScore, topRank)`; it is modelled as an
association list in insertion order.  After the accumulation the code adds
the top-rank bonus to each entry, emits each entry with source `hybrid`
(map iteration order is irrelevant: the emission is sorted), and sorts by
score descending. -/

/-- The stable identity of a result: id if present, else path. -/
def rrfKey (r : SearchResult) : String := if r.id = "" then r.path else r.id

/-- The value type of the fusion accumulator map. -/
structure FusionScore where
  result : SearchResult
  rrfScore : ℚ
  topRank : Nat
  deriving DecidableEq

/-- One result at 0-based `rank` within a list of weight `weight`: add
`weight / (k + rank + 1)` to the accumulator under the result's key, and
lower `topRank` if this rank is better; a fresh key starts at this
contribution with this rank. -/
def fusionStep (k : Int) (weight : ℚ) (scores : List (String × FusionScore))
    (rank : Nat) (result : SearchResult) : List (String × FusionScore) :=
  match assocGet? scores (rrfKey result) with
  | some existing =>
    assocSet scores (rrfKey result)
      { existing with
          rrfScore := existing.rrfScore + weight / ((k : ℚ) + rank + 1)
          topRank := if rank < existing.topRank then rank else existing.topRank }
  | none =>
    assocSet scores (rrfKey result)
      { result := result, rrfScore := weight / ((k : ℚ) + rank + 1), topRank := rank }

/-- The `for rank, result := range list` loop. -/
def fusionAddList (k : Int) (weight : ℚ) :
    List (String × FusionScore) → List SearchResult → Nat →
      List (String × FusionScore)
  | scores, [], _ => scores
  | scores, r :: rs, rank =>
    fusionAddList k weight (fusionStep k weight scores rank r) rs (rank + 1)

/-- The `for listIdx, list := range resultLists` loop over (weight, list)
pairs. -/
def fusionAddLists (k : Int) :
    List (String × FusionScore) → List (ℚ × List SearchResult) →
      List (String × FusionScore)
  | scores, [] => scores
  | scores, (w, l) :: rest => fusionAddLists k (fusionAddList k w scores l 0) rest

/-- Pair each list with its weight; a list beyond the end of `weights`
defaults to weight 1.0. -/
def rrfWeightsOf : List (List SearchResult) → List ℚ →
    List (ℚ × List SearchResult)
  | [], _ => []
  | l :: ls, [] => (1, l) :: rrfWeightsOf ls []
  | l :: ls, w :: ws => (w, l) :: rrfWeightsOf ls ws

/-- Top-rank bonus: +0.05 for a best rank of 0, +0.02 for a best rank of 1
or 2. -/
def fusionBonus (topRank : Nat) : ℚ :=
  if topRank = 0 then 5/100 else if topRank ≤ 2 then 2/100 else 0

/-- `store.ReciprocalRankFusion`: `k = 0` selects the default 60; fuse all
lists, add the bonus, emit with source `hybrid`, sort by score
descending. -/
def ReciprocalRankFusion (resultLists : List (List SearchResult))
    (weights : List ℚ) (k : Int) : List SearchResult :=
  sortScoreDesc
    ((fusionAddLists (if k = 0 then 60 else k) []
        (rrfWeightsOf resultLists weights)).map
      (fun e => { e.2.result with
                    score := e.2.rrfScore + fusionBonus e.2.topRank,
                    source := "hybrid" }))

/-! Specification-side scoring, written from the claim's wording: the score
of a candidate key is the sum, over every list and every 0-based rank at
which the key appears in that list, of `weight / (k + rank + 1)`, plus the
top-rank bonus determined by the best (smallest) observed rank. -/

/-- Claim side: total contribution of one list to `key`, starting at rank
`n`. -/
def contribFrom (k : Int) (w : ℚ) (key : String) :
    List SearchResult → Nat → ℚ
  | [], _ => 0
  | r :: rs, n =>
    (if rrfKey r = key then w / ((k : ℚ) + n + 1) else 0) +
      contribFrom k w key rs (n + 1)

/-- Claim side: the 0-based ranks at which `key` appears in a list,
starting at rank `n`. -/
def ranksFrom (key : String) : List SearchResult → Nat → List Nat
  | [], _ => []
  | r :: rs, n =>
    if rrfKey r = key then n :: ranksFrom key rs (n + 1)
    else ranksFrom key rs (n + 1)

/-- The first result carrying `key` in a list. -/
def firstResult (key : String) : List SearchResult → Option SearchResult
  | [] => none
  | r :: rs => if rrfKey r = key then some r else firstResult key rs

/-- Claim side: the accumulated weighted sum for `key` over all lists. -/
def specRaw (k : Int) (key : String) : List (ℚ × List SearchResult) → ℚ
  | [] => 0
  | (w, l) :: rest => contribFrom k w key l 0 + specRaw k key rest

/-- Claim side: every 0-based rank at which `key` is observed, across all
lists. -/
def allRanks (key : String) : List (ℚ × List SearchResult) → List Nat
  | [] => []
  | (_, l) :: rest => ranksFrom key l 0 ++ allRanks key rest

/-- The first result carrying `key` across all lists. -/
def firstResultLists (key : String) :
    List (ℚ × List SearchResult) → Option SearchResult
  | [] => none
  | (_, l) :: rest =>
    match firstResult key l with
    | some r => some r
    | none => firstResultLists key rest

/-- The best (smallest) rank of a rank list (0 for an empty list, which
never arises for an emitted candidate). -/
def rankMin : List Nat → Nat
  | [] => 0
  | a :: t => t.foldr min a

/-- Claim side: the top-rank bonus as a function of the observed ranks. -/
def specBonus (ranks : List Nat) : ℚ :=
  if rankMin ranks = 0 then 5/100 else if rankMin ranks ≤ 2 then 2/100 else 0

/-! Association-list and minimum folklore used by the fusion proofs. -/

theorem find?_overwrite {α : Type} (es : List (String × α)) (key key' : String)
    (v : α) (h : key' ≠ key) :
    List.find? (fun e => e.1 == key')
        (es.map (fun e => if e.1 == key then (key, v) else e)) =
      List.find? (fun e => e.1 == key') es := by
  induction es with
  | nil => rfl
  | cons e es ih =>
    rw [List.map_cons]
    cases he : (e.1 == key) with
    | true =>
      have he' : e.1 = key := beq_iff_eq.mp he
      have h1 : ((key : String) == key') = false := by
        rw [beq_eq_false_iff_ne]
        exact fun hk => h hk.symm
      have h2 : (e.1 == key') = false := by
        rw [beq_eq_false_iff_ne, he']
        exact fun hk => h hk.symm
      rw [if_pos rfl]
      simp only [List.find?, h1, h2]
      exact ih
    | false =>
      rw [if_neg Bool.false_ne_true]
      simp only [List.find?]
      cases hk : (e.1 == key') with
      | true => simp only [hk]
      | false => simp only [hk]; exact ih

theorem assocGet?_set_ne {α : Type} (m : List (String × α)) (key key' : String)
    (v : α) (h : key' ≠ key) :
    assocGet? (assocSet m key v) key' = assocGet? m key' := by
  unfold assocSet
  by_cases hh : assocHas m key
  · rw [if_pos hh]
    unfold assocGet?
    rw [find?_overwrite m key key' v h]
  · rw [if_neg hh]
    unfold assocGet?
    rw [List.find?_append]
    have hnone : List.find? (fun e => e.1 == key') [(key, v)] = none := by
      have hkk : ((key : String) == key') = false := by
        rw [beq_eq_false_iff_ne]
        exact fun hk => h hk.symm
      simp [List.find?, hkk]
    rw [hnone]
    cases List.find? (fun e => e.1 == key') m <;> rfl

/-- The keys of an association list. -/
def assocKeys {α : Type} (m : List (String × α)) : List String := m.map Prod.fst

theorem assocSet_keys {α : Type} (m : List (String × α)) (key : String) (v : α) :
    assocKeys (assocSet m key v) =
      if assocHas m key then assocKeys m else assocKeys m ++ [key] := by
  unfold assocSet assocKeys
  by_cases hh : assocHas m key
  · rw [if_pos hh, if_pos hh, List.map_map]
    apply List.map_congr_left
    intro e _
    by_cases he : (e.1 == key) = true
    · have he' : e.1 = key := beq_iff_eq.mp he
      simp [he, he']
    · have he' : ¬ e.1 = key := by simpa [beq_iff_eq] using he
      simp [he, he']
  · rw [if_neg hh, if_neg hh, List.map_append]
    rfl

theorem assocSet_keys_nodup {α : Type} (m : List (String × α)) (key : String)
    (v : α) (h : (assocKeys m).Nodup) : (assocKeys (assocSet m key v)).Nodup := by
  rw [assocSet_keys]
  by_cases hh : assocHas m key
  · rwa [if_pos hh]
  · rw [if_neg hh]
    have hnot : key ∉ assocKeys m := fun hmem => hh ((assocHas_iff m key).mpr hmem)
    simp [List.nodup_append, h, hnot]

theorem assocGet?_mem {α : Type} (m : List (String × α)) (key : String) (v : α)
    (h : assocGet? m key = some v) : (key, v) ∈ m := by
  unfold assocGet? at h
  cases hf : List.find? (fun e => e.1 == key) m with
  | none => rw [hf] at h; cases h
  | some b =>
    rw [hf] at h
    have hb := List.mem_of_find?_eq_some hf
    have hp' : b.1 = key :=
      beq_iff_eq.mp (@List.find?_some _ (fun e => e.1 == key) b m hf)
    have hv : b.2 = v := by
      simpa using h
    subst hv
    rw [← hp', Prod.mk.eta]
    exact hb

theorem assocGet?_of_mem_nodup {α : Type} (m : List (String × α)) (key : String)
    (v : α) (hnd : (assocKeys m).Nodup) (hmem : (key, v) ∈ m) :
    assocGet? m key = some v := by
  induction m with
  | nil => cases hmem
  | cons e es ih =>
    rcases List.mem_cons.mp hmem with rfl | hmem2
    · simp [assocGet?, List.find?]
    · have hkey : key ∈ assocKeys es :=
        List.mem_map.mpr ⟨(key, v), hmem2, rfl⟩
      have hnd2 : (e.1 :: assocKeys es).Nodup := hnd
      have hcons := List.nodup_cons.mp hnd2
      have hne : (e.1 == key) = false := by
        rw [beq_eq_false_iff_ne]
        intro hk
        rw [hk] at hcons
        exact hcons.1 hkey
      have := ih hcons.2 hmem2
      simpa [assocGet?, List.find?, hne] using this

theorem assocSet_lookup_noop {α : Type} (m : List (String × α)) (key : String)
    (v : α) (hnd : (assocKeys m).Nodup) (h : assocGet? m key = some v) :
    assocSet m key v = m := by
  have hmem := assocGet?_mem m key v h
  have hhas : assocHas m key = true :=
    (assocHas_iff m key).mpr (List.mem_map.mpr ⟨(key, v), hmem, rfl⟩)
  unfold assocSet
  rw [if_pos hhas]
  have hinj := List.inj_on_of_nodup_map
    (show (List.map Prod.fst m).Nodup from hnd)
  conv_rhs => rw [← List.map_id m]
  apply List.map_congr_left
  intro e he
  by_cases hk : (e.1 == key) = true
  · have heq : e = (key, v) := hinj he hmem (beq_iff_eq.mp hk)
    simp [hk, heq]
  · simp [hk]

theorem foldr_min_min (t : List Nat) (a b : Nat) :
    t.foldr min (min a b) = min a (t.foldr min b) := by
  induction t with
  | nil => rfl
  | cons c t ih =>
    simp only [List.foldr_cons, ih]
    rw [min_left_comm]

theorem foldr_min_le (t : List Nat) (a : Nat) :
    t.foldr min a ≤ a ∧ ∀ x ∈ t, t.foldr min a ≤ x := by
  induction t with
  | nil => exact ⟨le_refl _, by simp⟩
  | cons c t ih =>
    refine ⟨le_trans (min_le_right _ _) ih.1, ?_⟩
    intro x hx
    rcases List.mem_cons.mp hx with rfl | hx
    · exact min_le_left _ _
    · exact le_trans (min_le_right _ _) (ih.2 x hx)

theorem foldr_min_of_le (t : List Nat) (a : Nat) (h : ∀ x ∈ t, a ≤ x) :
    t.foldr min a = a := by
  induction t with
  | nil => rfl
  | cons c t ih =>
    simp only [List.foldr_cons]
    rw [ih (fun x hx => h x (List.mem_cons_of_mem c hx)),
      min_eq_right (h c (List.mem_cons_self c t))]

theorem foldr_min_comm (l1 l2 : List Nat) (d : Nat) :
    l1.foldr min (l2.foldr min d) = l2.foldr min (l1.foldr min d) := by
  induction l1 with
  | nil => rfl
  | cons a t ih =>
    simp only [List.foldr_cons, ih]
    exact (foldr_min_min l2 a _).symm

theorem rankMin_append (l1 l2 : List Nat) (h : l1 ≠ []) :
    rankMin (l1 ++ l2) = l2.foldr min (rankMin l1) := by
  cases l1 with
  | nil => cases h rfl
  | cons a t =>
    unfold rankMin
    simp only [List.cons_append]
    rw [List.foldr_append]
    exact foldr_min_comm t l2 a

theorem rankMin_le_mem (l : List Nat) (x : Nat) (h : x ∈ l) : rankMin l ≤ x := by
  cases l with
  | nil => cases h
  | cons a t =>
    unfold rankMin
    rcases List.mem_cons.mp h with rfl | hx
    · exact (foldr_min_le t x).1
    · exact (foldr_min_le t a).2 x hx

theorem fusionStep_lookup_self (k : Int) (w : ℚ) (scores : List (String × FusionScore))
    (rank : Nat) (r : SearchResult) :
    assocGet? (fusionStep k w scores rank r) (rrfKey r) =
      some (match assocGet? scores (rrfKey r) with
        | some e =>
          { result := e.result, rrfScore := e.rrfScore + w / ((k : ℚ) + rank + 1),
            topRank := if rank < e.topRank then rank else e.topRank }
        | none =>
          { result := r, rrfScore := w / ((k : ℚ) + rank + 1), topRank := rank }) := by
  unfold fusionStep
  cases assocGet? scores (rrfKey r) <;> exact assocGet?_set_self _ _ _

theorem fusionStep_lookup_ne (k : Int) (w : ℚ) (scores : List (String × FusionScore))
    (rank : Nat) (r : SearchResult) (key : String) (h : key ≠ rrfKey r) :
    assocGet? (fusionStep k w scores rank r) key = assocGet? scores key := by
  unfold fusionStep
  cases assocGet? scores (rrfKey r) <;> exact assocGet?_set_ne _ _ _ _ h

theorem fusionStep_keys_nodup (k : Int) (w : ℚ) (scores : List (String × FusionScore))
    (rank : Nat) (r : SearchResult) (h : (assocKeys scores).Nodup) :
    (assocKeys (fusionStep k w scores rank r)).Nodup := by
  unfold fusionStep
  cases assocGet? scores (rrfKey r) <;> exact assocSet_keys_nodup _ _ _ h

theorem fusionAddList_keys_nodup (k : Int) (w : ℚ) :
    ∀ (list : List SearchResult) (scores : List (String × FusionScore)) (n : Nat),
      (assocKeys scores).Nodup → (assocKeys (fusionAddList k w scores list n)).Nodup := by
  intro list
  induction list with
  | nil => intro scores n h; exact h
  | cons r rs ih =>
    intro scores n h
    exact ih _ (n + 1) (fusionStep_keys_nodup k w scores n r h)

theorem fusionAddLists_keys_nodup (k : Int) :
    ∀ (wls : List (ℚ × List SearchResult)) (scores : List (String × FusionScore)),
      (assocKeys scores).Nodup → (assocKeys (fusionAddLists k scores wls)).Nodup := by
  intro wls
  induction wls with
  | nil => intro scores h; exact h
  | cons wl rest ih =>
    obtain ⟨w, l⟩ := wl
    intro scores h
    exact ih _ (fusionAddList_keys_nodup k w l scores 0 h)

theorem assocSet_entry_pred {α : Type} (P : String × α → Prop)
    (m : List (String × α)) (key : String) (v : α)
    (hm : ∀ e ∈ m, P e) (hv : P (key, v)) : ∀ e ∈ assocSet m key v, P e := by
  unfold assocSet
  split
  · intro e he
    obtain ⟨e0, he0, rfl⟩ := List.mem_map.mp he
    by_cases h : (e0.1 == key) = true
    · simpa [h] using hv
    · simpa [h] using hm e0 he0
  · intro e he
    rcases List.mem_append.mp he with he | he
    · exact hm e he
    · rcases List.mem_singleton.mp he with rfl
      exact hv

theorem fusionStep_entry_key (k : Int) (w : ℚ) (scores : List (String × FusionScore))
    (rank : Nat) (r : SearchResult)
    (hm : ∀ e ∈ scores, e.1 = rrfKey e.2.result) :
    ∀ e ∈ fusionStep k w scores rank r, e.1 = rrfKey e.2.result := by
  unfold fusionStep
  cases hget : assocGet? scores (rrfKey r) with
  | some existing =>
    refine assocSet_entry_pred _ scores _ _ hm ?_
    have hmem := assocGet?_mem scores (rrfKey r) existing hget
    simpa using hm _ hmem
  | none =>
    exact assocSet_entry_pred _ scores _ _ hm rfl

theorem fusionAddList_entry_key (k : Int) (w : ℚ) :
    ∀ (list : List SearchResult) (scores : List (String × FusionScore)) (n : Nat),
      (∀ e ∈ scores, e.1 = rrfKey e.2.result) →
      ∀ e ∈ fusionAddList k w scores list n, e.1 = rrfKey e.2.result := by
  intro list
  induction list with
  | nil => intro scores n h; exact h
  | cons r rs ih =>
    intro scores n h
    exact ih _ (n + 1) (fusionStep_entry_key k w scores n r h)

theorem fusionAddLists_entry_key (k : Int) :
    ∀ (wls : List (ℚ × List SearchResult)) (scores : List (String × FusionScore)),
      (∀ e ∈ scores, e.1 = rrfKey e.2.result) →
      ∀ e ∈ fusionAddLists k scores wls, e.1 = rrfKey e.2.result := by
  intro wls
  induction wls with
  | nil => intro scores h; exact h
  | cons wl rest ih =>
    obtain ⟨w, l⟩ := wl
    intro scores h
    exact ih _ (fusionAddList_entry_key k w l scores 0 h)

theorem ranksFrom_ge (key : String) :
    ∀ (list : List SearchResult) (n : Nat), ∀ x ∈ ranksFrom key list n, n ≤ x := by
  intro list
  induction list with
  | nil => intro n x hx; cases hx
  | cons r rs ih =>
    intro n x hx
    unfold ranksFrom at hx
    by_cases hk : rrfKey r = key
    · rw [if_pos hk] at hx
      rcases List.mem_cons.mp hx with rfl | hx
      · exact le_refl _
      · exact le_trans (Nat.le_succ n) (ih (n + 1) x hx)
    · rw [if_neg hk] at hx
      exact le_trans (Nat.le_succ n) (ih (n + 1) x hx)

theorem firstResult_none_ranks (key : String) :
    ∀ (list : List SearchResult), firstResult key list = none →
      ∀ n, ranksFrom key list n = [] := by
  intro list
  induction list with
  | nil => intro _ n; rfl
  | cons r rs ih =>
    intro h n
    unfold firstResult at h
    by_cases hk : rrfKey r = key
    · rw [if_pos hk] at h; cases h
    · rw [if_neg hk] at h
      unfold ranksFrom
      rw [if_neg hk]
      exact ih h (n + 1)

theorem firstResult_none_contrib (k : Int) (w : ℚ) (key : String) :
    ∀ (list : List SearchResult), firstResult key list = none →
      ∀ n, contribFrom k w key list n = 0 := by
  intro list
  induction list with
  | nil => intro _ n; rfl
  | cons r rs ih =>
    intro h n
    unfold firstResult at h
    by_cases hk : rrfKey r = key
    · rw [if_pos hk] at h; cases h
    · rw [if_neg hk] at h
      unfold contribFrom
      rw [if_neg hk, ih h (n + 1), zero_add]

theorem firstResult_some_ranks_ne (key : String) :
    ∀ (list : List SearchResult) (r : SearchResult), firstResult key list = some r →
      ∀ n, ranksFrom key list n ≠ [] := by
  intro list
  induction list with
  | nil => intro r h; cases h
  | cons r0 rs ih =>
    intro r h n
    unfold firstResult at h
    unfold ranksFrom
    by_cases hk : rrfKey r0 = key
    · rw [if_pos hk]
      exact List.cons_ne_nil _ _
    · rw [if_neg hk] at h
      rw [if_neg hk]
      exact ih r h (n + 1)

theorem fusionAddList_lookup (k : Int) (w : ℚ) (key : String) :
    ∀ (list : List SearchResult) (scores : List (String × FusionScore)) (n : Nat),
    assocGet? (fusionAddList k w scores list n) key =
      match assocGet? scores key, firstResult key list with
      | some e, _ =>
          some { result := e.result,
                 rrfScore := e.rrfScore + contribFrom k w key list n,
                 topRank := (ranksFrom key list n).foldr min e.topRank }
      | none, some r =>
          some { result := r, rrfScore := contribFrom k w key list n,
                 topRank := rankMin (ranksFrom key list n) }
      | none, none => none := by
  intro list
  induction list with
  | nil =>
    intro scores n
    simp only [fusionAddList, firstResult, contribFrom, ranksFrom, List.foldr_nil]
    cases assocGet? scores key with
    | none => rfl
    | some e => simp
  | cons r rs ih =>
    intro scores n
    simp only [fusionAddList]
    rw [ih (fusionStep k w scores n r) (n + 1)]
    by_cases hkey : rrfKey r = key
    · have hstep := fusionStep_lookup_self k w scores n r
      rw [hkey] at hstep
      cases hget : assocGet? scores key with
      | some e =>
        rw [hget] at hstep
        rw [hstep]
        simp only [contribFrom, ranksFrom, firstResult, if_pos hkey, List.foldr_cons]
        have hmin : (if n < e.topRank then n else e.topRank) = min n e.topRank := by
          split <;> omega
        rw [hmin, foldr_min_min]
        rw [add_assoc]
      | none =>
        rw [hget] at hstep
        rw [hstep]
        simp only [contribFrom, ranksFrom, firstResult, if_pos hkey, rankMin]
    · have hstep := fusionStep_lookup_ne k w scores n r key
        (fun hk => hkey hk.symm)
      rw [hstep]
      simp only [contribFrom, ranksFrom, firstResult, if_neg hkey, zero_add]

theorem fusionAddLists_lookup (k : Int) (key : String) :
    ∀ (wls : List (ℚ × List SearchResult)) (scores : List (String × FusionScore)),
    assocGet? (fusionAddLists k scores wls) key =
      match assocGet? scores key, firstResultLists key wls with
      | some e, _ =>
          some { result := e.result, rrfScore := e.rrfScore + specRaw k key wls,
                 topRank := (allRanks key wls).foldr min e.topRank }
      | none, some r =>
          some { result := r, rrfScore := specRaw k key wls,
                 topRank := rankMin (allRanks key wls) }
      | none, none => none := by
  intro wls
  induction wls with
  | nil =>
    intro scores
    simp only [fusionAddLists, firstResultLists, specRaw, allRanks, List.foldr_nil]
    cases assocGet? scores key with
    | none => rfl
    | some e => simp
  | cons wl rest ih =>
    obtain ⟨w, l⟩ := wl
    intro scores
    simp only [fusionAddLists]
    rw [ih (fusionAddList k w scores l 0)]
    rw [fusionAddList_lookup k w key l scores 0]
    cases hget : assocGet? scores key with
    | some e =>
      simp only [specRaw, allRanks, List.foldr_append]
      rw [add_assoc, foldr_min_comm]
    | none =>
      cases hfr : firstResult key l with
      | some r =>
        simp only [specRaw, allRanks, firstResultLists, hfr]
        rw [rankMin_append _ _ (firstResult_some_ranks_ne key l r hfr 0)]
      | none =>
        have h1 := firstResult_none_ranks key l hfr 0
        have h2 := firstResult_none_contrib k w key l hfr 0
        simp only [specRaw, allRanks, firstResultLists, hfr, h1, h2, zero_add,
          List.nil_append]

theorem specBonus_eq (l : List Nat) : specBonus l = fusionBonus (rankMin l) := rfl

/-- C3: every fused result carries source `hybrid`; the output is ordered by
accumulated score descending; and each emitted candidate's score equals the
claim's formula — the sum over all lists of `weights[i] / (k_rrf + r + 1)`
for each 0-based rank `r` at which the candidate's key appears in list `i`
(`specRaw`), plus 0.05 if its best observed rank is 0 and 0.02 if its best
observed rank is 1 or 2 (`specBonus`).  `k_rrf` is taken positive (the code
replaces a zero `k_rrf` by the default 60). -/
theorem C3_rrf (resultLists : List (List SearchResult)) (weights : List ℚ)
    (k : Int) (hk : 0 < k) (hw : ∀ w ∈ weights, 0 ≤ w) :
    (∀ r ∈ ReciprocalRankFusion resultLists weights k, r.source = "hybrid") ∧
    (ReciprocalRankFusion resultLists weights k).Sorted
      (fun a b => b.score ≤ a.score) ∧
    (∀ r ∈ ReciprocalRankFusion resultLists weights k,
      r.score = specRaw k (rrfKey r) (rrfWeightsOf resultLists weights) +
        specBonus (allRanks (rrfKey r) (rrfWeightsOf resultLists weights))) := by
  have hkk : (if k = 0 then 60 else k) = k := if_neg (by omega)
  refine ⟨?_, ?_, ?_⟩
  · intro r hr
    unfold ReciprocalRankFusion at hr
    obtain ⟨e, he, rfl⟩ := List.mem_map.mp ((sortScoreDesc_perm _).mem_iff.mp hr)
    rfl
  · exact sortScoreDesc_sorted _
  · intro r hr
    unfold ReciprocalRankFusion at hr
    rw [hkk] at hr
    obtain ⟨e, he, rfl⟩ := List.mem_map.mp ((sortScoreDesc_perm _).mem_iff.mp hr)
    have hkeys := fusionAddLists_entry_key k (rrfWeightsOf resultLists weights) []
      (by intro e he; cases he) e he
    have hnd := fusionAddLists_keys_nodup k (rrfWeightsOf resultLists weights) []
      List.nodup_nil
    have hget : assocGet?
        (fusionAddLists k [] (rrfWeightsOf resultLists weights)) e.1 = some e.2 := by
      apply assocGet?_of_mem_nodup _ _ _ hnd
      rw [Prod.mk.eta]
      exact he
    rw [fusionAddLists_lookup k e.1 (rrfWeightsOf resultLists weights) []] at hget
    have hnone : assocGet? ([] : List (String × FusionScore)) e.1 = none := rfl
    rw [hnone] at hget
    cases hfr : firstResultLists e.1 (rrfWeightsOf resultLists weights) with
    | none =>
      rw [hfr] at hget
      cases hget
    | some r0 =>
      rw [hfr] at hget
      have he2 : ({ result := r0,
                    rrfScore := specRaw k e.1 (rrfWeightsOf resultLists weights),
                    topRank := rankMin (allRanks e.1
                      (rrfWeightsOf resultLists weights)) } : FusionScore) = e.2 :=
        Option.some.inj hget
      show e.2.rrfScore + fusionBonus e.2.topRank =
        specRaw k (rrfKey e.2.result) (rrfWeightsOf resultLists weights) +
          specBonus (allRanks (rrfKey e.2.result) (rrfWeightsOf resultLists weights))
      rw [← hkeys, ← he2, specBonus_eq]

/-- A lexical hit used in concrete fusion scenarios. -/
def resA : SearchResult :=
  { id := "a", score := 1, title := "A", content := "alpha", source := "fts",
    collection := "col", path := "pa" }

/-- A dense hit used in concrete fusion scenarios. -/
def resB : SearchResult :=
  { id := "b", score := 1, title := "B", content := "beta", source := "vector",
    collection := "col", path := "pb" }

/-- C3 witness: the fusion of the two concrete lists `[[resA, resB], [resB]]`
with weights `[1, 1/2]` and `k_rrf = 60` satisfies the full conclusion. -/
theorem C3_rrf_witness :
    ((0 : Int) < 60 ∧ ∀ w ∈ [(1 : ℚ), 1/2], 0 ≤ w) ∧
    ((∀ r ∈ ReciprocalRankFusion [[resA, resB], [resB]] [1, 1/2] 60,
        r.source = "hybrid") ∧
     (ReciprocalRankFusion [[resA, resB], [resB]] [1, 1/2] 60).Sorted
        (fun a b => b.score ≤ a.score) ∧
     (∀ r ∈ ReciprocalRankFusion [[resA, resB], [resB]] [1, 1/2] 60,
        r.score = specRaw 60 (rrfKey r) (rrfWeightsOf [[resA, resB], [resB]] [1, 1/2]) +
          specBonus (allRanks (rrfKey r)
            (rrfWeightsOf [[resA, resB], [resB]] [1, 1/2])))) :=
  ⟨⟨by norm_num, by norm_num⟩,
   C3_rrf [[resA, resB], [resB]] [1, 1/2] 60 (by norm_num) (by norm_num)⟩

theorem rrf_length (resultLists : List (List SearchResult)) (weights : List ℚ)
    (k : Int) :
    (ReciprocalRankFusion resultLists weights k).length =
      (fusionAddLists (if k = 0 then 60 else k) []
        (rrfWeightsOf resultLists weights)).length := by
  unfold ReciprocalRankFusion
  rw [(sortScoreDesc_perm _).length_eq, List.length_map]

/-- C6: counterexample.  Appending the single-candidate list `[resB]` with
weight 0 to the fusion of `[[resA]]` (weight 1) CHANGES the fused output:
the zero-weight list still registers its candidate in the accumulator (with
score 0 plus the 0.05 top-rank bonus), so the fused list gains a second
entry. -/
theorem C6_counterexample :
    ReciprocalRankFusion [[resA], [resB]] [1, 0] 60 ≠
      ReciprocalRankFusion [[resA]] [1] 60 := by
  intro h
  have hl := congrArg List.length h
  rw [rrf_length, rrf_length] at hl
  have hab : (("a" : String) == "b") = false := by decide
  have ha : ¬ ("a" : String) = "" := by decide
  have hb : ¬ ("b" : String) = "" := by decide
  norm_num [fusionAddLists, fusionAddList, fusionStep, rrfWeightsOf, rrfKey,
    assocGet?, assocSet, assocHas, resA, resB, List.find?, hab, ha, hb] at hl

/-- Supporting observation for the zero-weight no-op proviso: a zero-weight
list can also change the output for keys it does NOT introduce, by
improving their best observed rank and hence the top-rank bonus (the
accumulator lowers `topRank` on every appearance, irrespective of the
list's weight).  Here `resA` sits at rank 1 of the weighted list but at
rank 0 of the appended zero-weight list, so its bonus rises from 0.02 to
0.05 and the fused scores change.  This is why the no-op theorem requires
each appended entry to appear earlier at a rank no worse than its rank in
the appended list. -/
theorem zero_weight_bonus_sensitive :
    ReciprocalRankFusion [[resB, resA], [resA]] [1, 0] 60 ≠
      ReciprocalRankFusion [[resB, resA]] [1] 60 := by
  have hab : (("a" : String) == "b") = false := by decide
  have hba : (("b" : String) == "a") = false := by decide
  have ha : ¬ ("a" : String) = "" := by decide
  have hb : ¬ ("b" : String) = "" := by decide
  have han : ¬ ("a" : String) = "b" := by decide
  have hbn : ¬ ("b" : String) = "a" := by decide
  intro h
  norm_num [ReciprocalRankFusion, fusionAddLists, fusionAddList, fusionStep,
    rrfWeightsOf, rrfKey, fusionBonus, sortScoreDesc, insertScoreDesc,
    assocGet?, assocSet, assocHas, resA, resB, List.find?,
    SearchResult.mk.injEq, hab, hba, ha, hb, han, hbn] at h

theorem rrfWeightsOf_append_zero :
    ∀ (resultLists : List (List SearchResult)) (weights : List ℚ)
      (newList : List SearchResult), weights.length = resultLists.length →
    rrfWeightsOf (resultLists ++ [newList]) (weights ++ [0]) =
      rrfWeightsOf resultLists weights ++ [((0 : ℚ), newList)] := by
  intro resultLists
  induction resultLists with
  | nil =>
    intro weights newList hlen
    have hw : weights = [] := List.length_eq_zero.mp (by simpa using hlen)
    subst hw
    rfl
  | cons l ls ih =>
    intro weights newList hlen
    cases weights with
    | nil => simp at hlen
    | cons w ws =>
      simp only [List.cons_append, rrfWeightsOf, List.append_eq]
      rw [ih ws newList (by simpa using hlen)]

theorem fusionAddLists_append (k : Int) :
    ∀ (xs ys : List (ℚ × List SearchResult))
      (scores : List (String × FusionScore)),
    fusionAddLists k scores (xs ++ ys) =
      fusionAddLists k (fusionAddLists k scores xs) ys := by
  intro xs
  induction xs with
  | nil => intro ys scores; rfl
  | cons x xs ih =>
    obtain ⟨w, l⟩ := x
    intro ys scores
    simp only [List.cons_append, fusionAddLists]
    exact ih ys _

theorem fusionAddList_zero_noop (k : Int) (scores : List (String × FusionScore))
    (hnd : (assocKeys scores).Nodup) :
    ∀ (list : List SearchResult) (n : Nat),
    (∀ i r, list.get? i = some r →
       ∃ fs, assocGet? scores (rrfKey r) = some fs ∧ fs.topRank ≤ n + i) →
    fusionAddList k 0 scores list n = scores := by
  intro list
  induction list with
  | nil => intro n _; rfl
  | cons r rs ih =>
    intro n h
    obtain ⟨fs, hfs, htop⟩ := h 0 r rfl
    have hstep : fusionStep k 0 scores n r = scores := by
      unfold fusionStep
      simp only [hfs]
      have hval : ({ fs with
          rrfScore := fs.rrfScore + 0 / ((k : ℚ) + (n : ℚ) + 1),
          topRank := if n < fs.topRank then n else fs.topRank } : FusionScore) = fs := by
        have h1 : fs.rrfScore + 0 / ((k : ℚ) + (n : ℚ) + 1) = fs.rrfScore := by
          rw [zero_div, add_zero]
        have h2 : (if n < fs.topRank then n else fs.topRank) = fs.topRank := by
          rw [if_neg]
          omega
        rw [h1, h2]
      rw [hval]
      exact assocSet_lookup_noop scores (rrfKey r) fs hnd hfs
    simp only [fusionAddList]
    rw [hstep]
    apply ih (n + 1)
    intro i r' hr'
    obtain ⟨fs', hfs', htop'⟩ := h (i + 1) r' (by simpa using hr')
    exact ⟨fs', hfs', by omega⟩

theorem allRanks_mem_first (key : String) :
    ∀ (wls : List (ℚ × List SearchResult)) (q : Nat), q ∈ allRanks key wls →
      ∃ r0, firstResultLists key wls = some r0 := by
  intro wls
  induction wls with
  | nil => intro q hq; cases hq
  | cons wl rest ih =>
    obtain ⟨w, l⟩ := wl
    intro q hq
    simp only [allRanks, List.mem_append] at hq
    simp only [firstResultLists]
    cases hfl : firstResult key l with
    | some r0 => exact ⟨r0, rfl⟩
    | none =>
      rcases hq with hq | hq
      · rw [firstResult_none_ranks key l hfl 0] at hq
        cases hq
      · exact ih q hq

/-- C6 (amended): appending a list with weight zero leaves the fused
ranking unchanged PROVIDED every candidate of the appended list already
appears, under the same key, somewhere in the original lists at a rank at
most its rank in the appended list.  (Without that proviso the zero-weight
list introduces new accumulator entries and can improve best-rank bonuses,
changing the output — see the counterexample.) -/
theorem C6_zero_weight_append (resultLists : List (List SearchResult))
    (weights : List ℚ) (k : Int) (newList : List SearchResult)
    (hlen : weights.length = resultLists.length)
    (hcov : ∀ i r, newList.get? i = some r →
      ∃ q ∈ allRanks (rrfKey r) (rrfWeightsOf resultLists weights), q ≤ i) :
    ReciprocalRankFusion (resultLists ++ [newList]) (weights ++ [0]) k =
      ReciprocalRankFusion resultLists weights k := by
  unfold ReciprocalRankFusion
  rw [rrfWeightsOf_append_zero resultLists weights newList hlen]
  rw [fusionAddLists_append]
  have hS : fusionAddLists (if k = 0 then 60 else k)
      (fusionAddLists (if k = 0 then 60 else k) []
        (rrfWeightsOf resultLists weights)) [((0 : ℚ), newList)] =
      fusionAddList (if k = 0 then 60 else k) 0
        (fusionAddLists (if k = 0 then 60 else k) []
          (rrfWeightsOf resultLists weights)) newList 0 := rfl
  rw [hS]
  rw [fusionAddList_zero_noop (if k = 0 then 60 else k) _
    (fusionAddLists_keys_nodup _ _ [] List.nodup_nil) newList 0 ?_]
  intro i r hr
  obtain ⟨q, hq, hqi⟩ := hcov i r hr
  obtain ⟨r0, hfr⟩ := allRanks_mem_first (rrfKey r) _ q hq
  have hlook := fusionAddLists_lookup (if k = 0 then 60 else k) (rrfKey r)
    (rrfWeightsOf resultLists weights) []
  have hnone : assocGet? ([] : List (String × FusionScore)) (rrfKey r) = none := rfl
  rw [hnone, hfr] at hlook
  refine ⟨_, hlook, ?_⟩
  have := rankMin_le_mem _ q hq
  simpa using le_trans this hqi

/-- C6 witness: appending `[resA]` (which already appears at rank 0 of the
first list) with weight 0 leaves the fusion of `[[resA, resB]]`
unchanged. -/
theorem C6_zero_weight_witness :
    ([(1 : ℚ)].length = [[resA, resB]].length ∧
      ∀ i r, [resA].get? i = some r →
        ∃ q ∈ allRanks (rrfKey r) (rrfWeightsOf [[resA, resB]] [1]), q ≤ i) ∧
    ReciprocalRankFusion [[resA, resB], [resA]] [1, 0] 60 =
      ReciprocalRankFusion [[resA, resB]] [1] 60 := by
  have hcov : ∀ i r, [resA].get? i = some r →
      ∃ q ∈ allRanks (rrfKey r) (rrfWeightsOf [[resA, resB]] [1]), q ≤ i := by
    intro i r hr
    cases i with
    | zero =>
      cases hr
      refine ⟨0, ?_, le_refl 0⟩
      have ha : ¬ ("a" : String) = "" := by decide
      simp [allRanks, rrfWeightsOf, ranksFrom, rrfKey, resA, resB, ha]
    | succ j => cases hr
  exact ⟨⟨rfl, hcov⟩,
    C6_zero_weight_append [[resA, resB]] [1] 60 [resA] rfl hcov⟩

/-! ### Position-aware rerank blending (`Retriever.rerank`)

The rerank capability (`llm.Rerank`) is external; its response is the
`rerankResults` parameter.  The candidate cap, the 1-based RRF rank map,
the id→index map, the per-candidate blend, and the final descending sort
follow the source. -/

/-- `llm.RerankResult`. -/
structure RerankResult where
  id : String
  score : ℚ
  index : Int
  deriving DecidableEq

/-- The hard cap on candidates submitted to the reranker. -/
def rerankDocLimit : Nat := 40

/-- `llm.Document` as submitted to the rerank capability. -/
structure LlmDocument where
  id : String
  content : String
  title : String
  deriving DecidableEq

/-- `candidates := results[:40]` when longer than the cap. -/
def rerankCandidates (results : List SearchResult) : List SearchResult :=
  if rerankDocLimit < results.length then results.take rerankDocLimit else results

/-- The documents submitted to `llm.Rerank`. -/
def rerankDocs (results : List SearchResult) : List LlmDocument :=
  (rerankCandidates results).map
    (fun r => { id := r.id, content := r.content, title := r.title })

/-- `rrfRankMap[key] = i + 1` for each candidate, last occurrence wins. -/
def buildRankMapAux : List SearchResult → Nat → List (String × Nat) →
    List (String × Nat)
  | [], _, acc => acc
  | r :: rs, i, acc => buildRankMapAux rs (i + 1) (assocSet acc (rrfKey r) (i + 1))

/-- The 1-based RRF rank map of the candidates. -/
def buildRankMap (cands : List SearchResult) : List (String × Nat) :=
  buildRankMapAux cands 0 []

/-- `indexMap[res.ID] = i` for each candidate, last occurrence wins. -/
def buildIndexMapAux : List SearchResult → Nat → List (String × Nat) →
    List (String × Nat)
  | [], _, acc => acc
  | r :: rs, i, acc => buildIndexMapAux rs (i + 1) (assocSet acc r.id i)

/-- The id→index map of the candidates. -/
def buildIndexMap (cands : List SearchResult) : List (String × Nat) :=
  buildIndexMapAux cands 0 []

/-- The position-dependent retrieval weight: 0.75 for ranks 1–3, 0.60 for
ranks 4–10, 0.40 beyond. -/
def rerankWeight (rrfRank : Nat) : ℚ :=
  if rrfRank ≤ 3 then 3/4 else if rrfRank ≤ 10 then 3/5 else 2/5

/-- `final = rrfWeight · (1/rank) + (1 − rrfWeight) · rerankScore`. -/
def rerankBlend (rrfRank : Nat) (rerankScore : ℚ) : ℚ :=
  rerankWeight rrfRank * (1 / (rrfRank : ℚ)) + (1 - rerankWeight rrfRank) * rerankScore

/-- The rank consulted for a candidate: the map value, with the Go
zero-value 0 (key absent — unreachable for real candidates) replaced by the
default rank 30. -/
def effRank (rrfRankMap : List (String × Nat)) (key : String) : Nat :=
  if (assocGet? rrfRankMap key).getD 0 = 0 then 30 else (assocGet? rrfRankMap key).getD 0

/-- One iteration of the loop over the rerank response: drop the entry if
its id is not a submitted candidate, otherwise append the candidate with
the blended score and source `rerank`. -/
def rerankFoldStep (candidates : List SearchResult)
    (indexMap rrfRankMap : List (String × Nat))
    (acc : List SearchResult) (rr : RerankResult) : List SearchResult :=
  match assocGet? indexMap rr.id with
  | none => acc
  | some idx =>
    match candidates.get? idx with
    | none => acc
    | some result =>
      acc ++ [{ result with
                  score := rerankBlend (effRank rrfRankMap (rrfKey result)) rr.score,
                  source := "rerank" }]

/-- `Retriever.rerank` with the capability response as a parameter. -/
def retrieverRerank (results : List SearchResult)
    (rerankResults : List RerankResult) : List SearchResult :=
  if results.isEmpty then results
  else
    sortScoreDesc (rerankResults.foldl
      (rerankFoldStep (rerankCandidates results)
        (buildIndexMap (rerankCandidates results))
        (buildRankMap (rerankCandidates results))) [])

theorem rerank_fold_mem (candidates : List SearchResult)
    (indexMap rrfRankMap : List (String × Nat)) :
    ∀ (rrs : List RerankResult) (acc : List SearchResult) (o : SearchResult),
    o ∈ rrs.foldl (rerankFoldStep candidates indexMap rrfRankMap) acc →
    o ∈ acc ∨ ∃ rr ∈ rrs, ∃ idx result,
      assocGet? indexMap rr.id = some idx ∧ candidates.get? idx = some result ∧
      o = { result with
              score := rerankBlend (effRank rrfRankMap (rrfKey result)) rr.score,
              source := "rerank" } := by
  intro rrs
  induction rrs with
  | nil => intro acc o ho; exact Or.inl ho
  | cons rr rrs ih =>
    intro acc o ho
    simp only [List.foldl_cons] at ho
    rcases ih _ o ho with hacc | ⟨rr', hrr', idx, result, h1, h2, h3⟩
    · unfold rerankFoldStep at hacc
      cases hidx : assocGet? indexMap rr.id with
      | none => simp only [hidx] at hacc; exact Or.inl hacc
      | some idx =>
        simp only [hidx] at hacc
        cases hres : candidates.get? idx with
        | none => simp only [hres] at hacc; exact Or.inl hacc
        | some result =>
          simp only [hres] at hacc
          rcases List.mem_append.mp hacc with h | h
          · exact Or.inl h
          · exact Or.inr ⟨rr, List.mem_cons_self _ _, idx, result, hidx, hres,
              List.mem_singleton.mp h⟩
    · exact Or.inr ⟨rr', List.mem_cons_of_mem _ hrr', idx, result, h1, h2, h3⟩

theorem buildIndexMapAux_sound :
    ∀ (cands : List SearchResult) (i0 : Nat) (acc : List (String × Nat))
      (id : String) (i : Nat),
    assocGet? (buildIndexMapAux cands i0 acc) id = some i →
    assocGet? acc id = some i ∨
      ∃ j c, cands.get? j = some c ∧ c.id = id ∧ i = i0 + j := by
  intro cands
  induction cands with
  | nil => intro i0 acc id i h; exact Or.inl h
  | cons c cs ih =>
    intro i0 acc id i h
    simp only [buildIndexMapAux] at h
    rcases ih (i0 + 1) _ id i h with hacc | ⟨j, c', hj, hid, hi⟩
    · by_cases hid : id = c.id
      · subst hid
        rw [assocGet?_set_self] at hacc
        refine Or.inr ⟨0, c, rfl, rfl, ?_⟩
        cases hacc
        omega
      · rw [assocGet?_set_ne acc c.id id i0 hid] at hacc
        exact Or.inl hacc
    · exact Or.inr ⟨j + 1, c', by simpa using hj, hid, by omega⟩

theorem buildRankMapAux_sound :
    ∀ (cands : List SearchResult) (i0 : Nat) (acc : List (String × Nat))
      (key : String) (v : Nat),
    assocGet? (buildRankMapAux cands i0 acc) key = some v →
    assocGet? acc key = some v ∨
      ∃ j c, cands.get? j = some c ∧ rrfKey c = key ∧ v = i0 + j + 1 := by
  intro cands
  induction cands with
  | nil => intro i0 acc key v h; exact Or.inl h
  | cons c cs ih =>
    intro i0 acc key v h
    simp only [buildRankMapAux] at h
    rcases ih (i0 + 1) _ key v h with hacc | ⟨j, c', hj, hid, hi⟩
    · by_cases hkey : key = rrfKey c
      · subst hkey
        rw [assocGet?_set_self] at hacc
        refine Or.inr ⟨0, c, rfl, rfl, ?_⟩
        cases hacc
        omega
      · rw [assocGet?_set_ne acc (rrfKey c) key (i0 + 1) hkey] at hacc
        exact Or.inl hacc
    · exact Or.inr ⟨j + 1, c', by simpa using hj, hid, by omega⟩

theorem buildRankMapAux_isSome :
    ∀ (cands : List SearchResult) (i0 : Nat) (acc : List (String × Nat))
      (key : String),
    ((∃ c ∈ cands, rrfKey c = key) ∨ (assocGet? acc key).isSome = true) →
    (assocGet? (buildRankMapAux cands i0 acc) key).isSome = true := by
  intro cands
  induction cands with
  | nil =>
    intro i0 acc key h
    rcases h with ⟨c, hc, _⟩ | h
    · cases hc
    · exact h
  | cons c cs ih =>
    intro i0 acc key h
    simp only [buildRankMapAux]
    apply ih (i0 + 1)
    by_cases hkey : key = rrfKey c
    · subst hkey
      right
      rw [assocGet?_set_self]
      rfl
    · rcases h with ⟨c', hc', hk'⟩ | h
      · rcases List.mem_cons.mp hc' with rfl | hc'
        · cases hkey hk'.symm
        · exact Or.inl ⟨c', hc', hk'⟩
      · right
        rwa [assocGet?_set_ne acc (rrfKey c) key (i0 + 1) hkey]

theorem nodup_id_index_unique (cands : List SearchResult)
    (hnd : (cands.map SearchResult.id).Nodup) (i j : Nat) (ci cj : SearchResult)
    (hi : cands.get? i = some ci) (hj : cands.get? j = some cj)
    (heq : ci.id = cj.id) : i = j := by
  have hlen : i < (cands.map SearchResult.id).length := by
    rw [List.length_map]
    obtain ⟨h, _⟩ := List.get?_eq_some.mp hi
    exact h
  apply List.get?_inj hlen hnd
  rw [List.get?_map, List.get?_map, hi, hj]
  simpa using heq

/-- C4: at most 40 candidates are submitted to the rerank capability; every
output result carries source `rerank`; the output is sorted by final score
descending; every output result corresponds to a submitted candidate at
0-based index `i` (1-based RRF rank `r = i + 1`) and a rerank-response
entry with the same id and score `s`, with final score
`w·(1/r) + (1−w)·s` where `w = 0.75` for `r ≤ 3`, `0.60` for `4 ≤ r ≤ 10`
and `0.40` otherwise; every candidate whose id is missing from the rerank
response is dropped.  Candidate ids are assumed nonempty and pairwise
distinct (in the pipeline they are content hashes). -/
theorem C4_rerank (results : List SearchResult) (rerankResults : List RerankResult)
    (hnd : (results.map SearchResult.id).Nodup)
    (hne : ∀ r ∈ results, r.id ≠ "") :
    (rerankDocs results).length ≤ 40 ∧
    (∀ o ∈ retrieverRerank results rerankResults, o.source = "rerank") ∧
    (retrieverRerank results rerankResults).Sorted (fun a b => b.score ≤ a.score) ∧
    (∀ o ∈ retrieverRerank results rerankResults,
      ∃ (i : Nat) (c : SearchResult) (s : ℚ),
        (rerankCandidates results).get? i = some c ∧ c.id = o.id ∧
        (∃ rr ∈ rerankResults, rr.id = o.id ∧ rr.score = s) ∧
        o.score = rerankWeight (i + 1) * (1 / (((i + 1 : Nat) : ℚ))) +
          (1 - rerankWeight (i + 1)) * s) ∧
    (∀ theId : String, theId ∉ rerankResults.map RerankResult.id →
      theId ∉ (retrieverRerank results rerankResults).map SearchResult.id) := by
  have hcnd : ((rerankCandidates results).map SearchResult.id).Nodup := by
    unfold rerankCandidates
    split
    · exact List.Nodup.sublist
        (List.Sublist.map SearchResult.id (List.take_sublist _ _)) hnd
    · exact hnd
  have hcne : ∀ r ∈ rerankCandidates results, r.id ≠ "" := by
    intro r hr
    apply hne
    unfold rerankCandidates at hr
    split at hr
    · exact (List.take_sublist _ _).subset hr
    · exact hr
  have hdocs : (rerankDocs results).length ≤ 40 := by
    unfold rerankDocs rerankCandidates rerankDocLimit
    rw [List.length_map]
    split
    · simp [List.length_take]
    · omega
  by_cases hres : results.isEmpty
  · have hnil : results = [] := by
      cases results with
      | nil => rfl
      | cons a l => simp [List.isEmpty] at hres
    subst hnil
    refine ⟨hdocs, ?_, ?_, ?_, ?_⟩
    · intro o ho
      simp [retrieverRerank] at ho
    · simp [retrieverRerank, List.isEmpty]
    · intro o ho
      simp [retrieverRerank] at ho
    · intro theId _ hmem
      simp [retrieverRerank] at hmem
  · refine ⟨hdocs, ?_, ?_, ?_, ?_⟩
    · intro o ho
      unfold retrieverRerank at ho
      rw [if_neg hres] at ho
      rcases rerank_fold_mem _ _ _ rerankResults [] o
        ((sortScoreDesc_perm _).mem_iff.mp ho) with h | ⟨rr, hrr, idx, result, h1, h2, rfl⟩
      · cases h
      · rfl
    · unfold retrieverRerank
      rw [if_neg hres]
      exact sortScoreDesc_sorted _
    · intro o ho
      unfold retrieverRerank at ho
      rw [if_neg hres] at ho
      rcases rerank_fold_mem _ _ _ rerankResults [] o
        ((sortScoreDesc_perm _).mem_iff.mp ho) with h | ⟨rr, hrr, idx, result, h1, h2, rfl⟩
      · cases h
      · rcases buildIndexMapAux_sound (rerankCandidates results) 0 [] rr.id idx h1 with
          habs | ⟨j, c, hj, hcid, hij⟩
        · simp [assocGet?] at habs
        · have hij0 : idx = j := by omega
          subst hij0
          have hc : c = result := by
            rw [hj] at h2
            exact Option.some.inj h2
          subst hc
          have hmemres : c ∈ rerankCandidates results := List.get?_mem h2
          have hidne : c.id ≠ "" := hcne c hmemres
          have hrk : rrfKey c = c.id := by
            unfold rrfKey
            rw [if_neg hidne]
          have hsome : (assocGet? (buildRankMap (rerankCandidates results)) c.id).isSome
              = true := by
            apply buildRankMapAux_isSome
            exact Or.inl ⟨c, hmemres, hrk⟩
          obtain ⟨v, hv⟩ := Option.isSome_iff_exists.mp hsome
          rcases buildRankMapAux_sound (rerankCandidates results) 0 [] c.id v hv with
            habs | ⟨j', c', hj', hk', hv'⟩
          · simp [assocGet?] at habs
          · have hmemc' : c' ∈ rerankCandidates results := List.get?_mem hj'
            have hc'id : c'.id = c.id := by
              have hcne' := hcne c' hmemc'
              unfold rrfKey at hk'
              rwa [if_neg hcne'] at hk'
            have hji : j' = idx :=
              nodup_id_index_unique _ hcnd j' idx c' c hj' h2 hc'id
            have hveq : v = idx + 1 := by omega
            have heff : effRank (buildRankMap (rerankCandidates results)) (rrfKey c)
                = idx + 1 := by
              unfold effRank
              rw [hrk, hv, hveq]
              simp
            refine ⟨idx, c, rr.score, h2, rfl, ⟨rr, hrr, hcid.symm, rfl⟩, ?_⟩
            show rerankBlend (effRank (buildRankMap (rerankCandidates results))
              (rrfKey c)) rr.score = _
            rw [heff]
            rfl
    · intro theId hnotin hmem
      unfold retrieverRerank at hmem
      rw [if_neg hres] at hmem
      obtain ⟨o, ho, hoid⟩ := List.mem_map.mp hmem
      rcases rerank_fold_mem _ _ _ rerankResults [] o
        ((sortScoreDesc_perm _).mem_iff.mp ho) with h | ⟨rr, hrr, idx, result, h1, h2, rfl⟩
      · cases h
      · rcases buildIndexMapAux_sound (rerankCandidates results) 0 [] rr.id idx h1 with
          habs | ⟨j, c, hj, hcid, hij⟩
        · simp [assocGet?] at habs
        · have hij0 : idx = j := by omega
          subst hij0
          have hc : c = result := by
            rw [hj] at h2
            exact Option.some.inj h2
          subst hc
          apply hnotin
          rw [← hoid]
          exact List.mem_map.mpr ⟨rr, hrr, hcid.symm⟩

/-- C4 witness: two candidates with ids `a`, `b` and a rerank response
naming only `b` satisfy the hypotheses and the full conclusion. -/
theorem C4_rerank_witness :
    ((([resA, resB].map SearchResult.id).Nodup ∧ ∀ r ∈ [resA, resB], r.id ≠ "")) ∧
    ((rerankDocs [resA, resB]).length ≤ 40 ∧
     (∀ o ∈ retrieverRerank [resA, resB] [⟨"b", 1/2, 0⟩], o.source = "rerank") ∧
     (retrieverRerank [resA, resB] [⟨"b", 1/2, 0⟩]).Sorted
        (fun a b => b.score ≤ a.score) ∧
     (∀ o ∈ retrieverRerank [resA, resB] [⟨"b", 1/2, 0⟩],
       ∃ (i : Nat) (c : SearchResult) (s : ℚ),
         (rerankCandidates [resA, resB]).get? i = some c ∧ c.id = o.id ∧
         (∃ rr ∈ [(⟨"b", 1/2, 0⟩ : RerankResult)], rr.id = o.id ∧ rr.score = s) ∧
         o.score = rerankWeight (i + 1) * (1 / (((i + 1 : Nat) : ℚ))) +
           (1 - rerankWeight (i + 1)) * s) ∧
     (∀ theId : String, theId ∉ [(⟨"b", 1/2, 0⟩ : RerankResult)].map RerankResult.id →
       theId ∉ (retrieverRerank [resA, resB] [⟨"b", 1/2, 0⟩]).map SearchResult.id)) :=
  ⟨⟨by decide, by decide⟩,
   C4_rerank [resA, resB] [⟨"b", 1/2, 0⟩] (by decide) (by decide)⟩

end Mmq
